import Mathlib

/-!
# Verification of the typed-function dispatch compiler

A shallow embedding of `src/typed-function2.js` (the `create()` lineage):
signature parsing, ignored-type filtering, specificity sorting, conversion
expansion, test compilation, the assembled dispatcher (fast path + generic
scan) and the call-time error builder, together with theorems settling the
frozen claims about the engine.

JavaScript strings are modelled as `List Char` (`Str`): `String.prototype.split`
becomes `List.splitOn`, `trim` becomes `jsTrim`, `join` becomes
`List.intercalate`.  JavaScript values are abstract: the engine is parametric
in a value type `V`; the handful of language-level operations the dispatcher
needs (the `undefined` value, array construction for rest-parameter gathering)
are provided by the `JsValues` class.  A concrete value type `JSValue`
instantiates the built-in type registry of `create()`.
-/

abbrev Str := List Char

/-- Shorthand turning a Lean string literal into the `List Char` model of a
JavaScript string. -/
def str (s : String) : Str := s.toList

/-- Whitespace recognised by the model of `String.prototype.trim`. -/
def isWsChar (c : Char) : Bool := c = ' ' || c = '\t' || c = '\n' || c = '\r'

/-- Model of `String.prototype.trim`: drop whitespace from both ends. -/
def jsTrim (s : Str) : Str :=
  List.rdropWhile isWsChar (List.dropWhile isWsChar s)

theorem jsTrim_sublist (s : Str) : (jsTrim s).Sublist s :=
  ((List.rdropWhile_prefix isWsChar _).sublist).trans
    ((List.dropWhile_suffix isWsChar).sublist)

theorem jsTrim_sub {s : Str} {a : Char} (h : a ∈ jsTrim s) : a ∈ s :=
  (jsTrim_sublist s).mem h

theorem jsTrim_nil : jsTrim [] = [] := rfl

theorem not_ws_head_iff {l : Str} :
    (∀ hl : 0 < l.length, ¬ isWsChar (l.get ⟨0, hl⟩)) ↔
      (∀ a ∈ l.head?, isWsChar a = false) := by
  cases l with
  | nil => simp
  | cons a r => simp [List.get]

theorem not_ws_last_iff {l : Str} :
    (∀ hl : l ≠ [], ¬ isWsChar (l.getLast hl)) ↔
      (∀ a ∈ l.getLast?, isWsChar a = false) := by
  by_cases hne : l = []
  · subst hne
    simp
  · rw [List.getLast?_eq_getLast l hne]
    constructor
    · intro h a ha
      simp at ha
      rw [← ha]
      simpa using h hne
    · intro h hl
      simpa using h (l.getLast hne) rfl

theorem dropWhile_cons_not {p : Char → Bool} {l r : Str} {a : Char}
    (h : l.dropWhile p = a :: r) : p a = false := by
  induction l with
  | nil => simp at h
  | cons x xs ih =>
      rw [List.dropWhile_cons] at h
      by_cases hx : p x = true
      · rw [if_pos hx] at h
        exact ih h
      · rw [if_neg hx] at h
        cases h
        simpa using hx

/-- A string whose two ends are not whitespace is fixed by `jsTrim`. -/
theorem jsTrim_eq_self_of {s : Str}
    (hh : ∀ a ∈ s.head?, isWsChar a = false)
    (hl : ∀ a ∈ s.getLast?, isWsChar a = false) : jsTrim s = s := by
  unfold jsTrim
  rw [List.dropWhile_eq_self_iff.mpr (not_ws_head_iff.mpr hh),
    List.rdropWhile_eq_self_iff.mpr (not_ws_last_iff.mpr hl)]

theorem jsTrim_head? {s : Str} : ∀ a ∈ (jsTrim s).head?, isWsChar a = false := by
  intro a ha
  obtain ⟨w, hw⟩ := List.rdropWhile_prefix isWsChar (List.dropWhile isWsChar s)
  cases hc : jsTrim s with
  | nil =>
      rw [hc] at ha
      simp at ha
  | cons b r =>
      rw [hc] at ha
      simp at ha
      have hw' : List.dropWhile isWsChar s = b :: (r ++ w) := by
        have h2 : jsTrim s ++ w = List.dropWhile isWsChar s := hw
        rw [hc] at h2
        simpa using h2.symm
      rw [← ha]
      exact dropWhile_cons_not hw'

theorem jsTrim_getLast? {s : Str} : ∀ a ∈ (jsTrim s).getLast?, isWsChar a = false := by
  rw [← not_ws_last_iff]
  intro hl
  exact List.rdropWhile_last_not _ _ hl

/-- `jsTrim` is idempotent: re-trimming a trimmed string changes nothing. -/
theorem jsTrim_idem (s : Str) : jsTrim (jsTrim s) = jsTrim s :=
  jsTrim_eq_self_of jsTrim_head? jsTrim_getLast?

/-! ## Data model

Shallow embedding of the `create()` closure of `src/typed-function2.js`.
Everything lives in the `TypedFn` namespace; definitions keep the source's
names.  `V` is the (abstract) type of JavaScript runtime values. -/

namespace TypedFn

/-- Host-language operations the dispatcher needs from the value universe:
the `undefined` value (reading a missing argument yields it) and array
construction/destruction (rest parameters are gathered into one array). -/
class JsValues (V : Type) where
  undef : V
  varr : List V → V
  vunarr : V → List V

/-- Model of reading `args[i]` from a JavaScript `arguments` object: a missing
index yields `undefined`. -/
def aget {V : Type} [JsValues V] (args : List V) (i : Nat) : V :=
  args.getD i JsValues.undef

/-- One entry of the type registry: `{ name: string, test: value => bool }`. -/
structure TypeEntry (V : Type) where
  name : Str
  test : V → Bool

/-- One entry of the conversion registry:
`{ from: string, to: string, convert: value => value }`. -/
structure Conversion (V : Type) where
  from_ : Str
  to_ : Str
  convert : V → V

/-- The mutable registry state of a `create()` instance: `typed.types`,
`typed.conversions` and `typed.ignore`. -/
structure Ctx (V : Type) where
  types : List (TypeEntry V)
  conversions : List (Conversion V)
  ignore : List Str

/-- `typed.addType`: validates the shape (always well-shaped here) and appends
to `typed.types`. -/
def addType {V : Type} (ctx : Ctx V) (t : TypeEntry V) : Ctx V :=
  { ctx with types := ctx.types ++ [t] }

/-- `typed.addConversion`: appends to `typed.conversions`. -/
def addConversion {V : Type} (ctx : Ctx V) (c : Conversion V) : Ctx V :=
  { ctx with conversions := ctx.conversions ++ [c] }

/-- A `Param` is the list of type names one parameter accepts. -/
abbrev Param := List Str

/-- A parsed signature: `{ params: Param[], restParam: boolean }`. -/
structure Sig where
  params : List Param
  restParam : Bool
deriving DecidableEq, Repr

/-- Construction-time failures of the compiler (`throw` in the source):
an empty signatures map, a misplaced rest parameter, an unknown type name. -/
inductive CompileError where
  | noSignatures
  | syntaxError
  | unknownType
deriving DecidableEq, Repr

/-- `findTest`: look up the test of a type by name in registry order; an
unknown name throws `TypeError` (the "did you mean" hint only affects the
message text, which is not modelled). -/
def findTest {V : Type} (ctx : Ctx V) (type : Str) : Except CompileError (V → Bool) :=
  match ctx.types.find? (fun entry => entry.name = type) with
  | some entry => .ok entry.test
  | none => .error .unknownType

/-- `findType`: name of the first registry entry whose test accepts the value,
`'unknown'` when none does (as computed inline in `createError`). -/
def findTypeName {V : Type} (types : List (TypeEntry V)) (value : V) : Str :=
  match types.find? (fun entry => entry.test value) with
  | some entry => entry.name
  | none => str "unknown"

/-- Source helper `ok`: a test accepting everything. -/
def ok {V : Type} : V → Bool := fun _ => true

/-- Source helper `notOk`: a test accepting nothing. -/
def notOk {V : Type} : V → Bool := fun _ => false

/-! ## Signature parser (component C) -/

/-- `parseParam`: split a token like `string | number` on `|`, trim the pieces
and drop empty ones. -/
def parseParam (param : Str) : Param :=
  ((param.splitOn '|').map jsTrim).filter (fun t => t ≠ [])

/-- Helper for `parseParams`: the indexed `forEach` loop over the trimmed
comma-separated tokens.  A token starting with `...` marks a rest parameter,
allowed only at the last index; elsewhere it throws `SyntaxError`. -/
def parseParamsGo (total : Nat) : List Str → Nat → Except CompileError (List Param × Bool)
  | [], _ => .ok ([], false)
  | tok :: rest, i =>
      if (str "...").isPrefixOf tok then
        if i = total - 1 then do
          let (ps, _) ← parseParamsGo total rest (i + 1)
          .ok (parseParam (if 3 < tok.length then tok.drop 3 else str "any") :: ps, true)
        else .error .syntaxError
      else do
        let (ps, r) ← parseParamsGo total rest (i + 1)
        .ok (parseParam tok :: ps, r)

/-- `parseParams`: parse a full signature string like `"number, string"`.
The empty (after trim) string yields the zero-arity signature. -/
def parseParams (signature : Str) : Except CompileError Sig := do
  if jsTrim signature = [] then
    .ok ⟨[], false⟩
  else
    let arr := (signature.splitOn ',').map jsTrim
    let (params, restParam) ← parseParamsGo arr.length arr 0
    .ok ⟨params, restParam⟩

/-- `stringifyParams`: canonical stringification; each param rendered as
`types.join('|')`, params joined by `,`, a leading `...` on the rest param. -/
def stringifyParams (sig : Sig) : Str :=
  List.intercalate [','] (sig.params.mapIdx (fun index param =>
    (if sig.restParam && index = sig.params.length - 1 then str "..." else []) ++
      List.intercalate ['|'] param))

/-! ## Signature normalizer (component D) -/

/-- The per-param loop of `filterIgnoredTypes`: filter each param against the
ignore list, failing (`null`) as soon as a param becomes empty. -/
def filterParams (ignore : List Str) : List Param → Option (List Param)
  | [] => some []
  | param :: rest =>
      if param.filter (fun t => !(ignore.contains t)) = [] then none
      else (filterParams ignore rest).map
        (fun ps => param.filter (fun t => !(ignore.contains t)) :: ps)

/-- `filterIgnoredTypes`: drop ignored type names from every param; if any
param becomes empty the whole signature is silently discarded (`null`). -/
def filterIgnoredTypes {V : Type} (ctx : Ctx V) (sig : Sig) : Option Sig :=
  (filterParams ctx.ignore sig.params).map (fun ps => ⟨ps, sig.restParam⟩)

/-! ## Test compiler (component G) -/

/-- `compileParam`: type test for one parameter.  The source branches on the
number of types; `undefined`/empty params accept everything.  An unknown type
name makes `findTest` throw at compile time. -/
def compileParam {V : Type} (ctx : Ctx V) : Option Param → Except CompileError (V → Bool)
  | none => .ok ok
  | some [] => .ok ok
  | some [t] => findTest ctx t
  | some [t0, t1] => do
      let test0 ← findTest ctx t0
      let test1 ← findTest ctx t1
      .ok (fun x => test0 x || test1 x)
  | some param => do
      let tests ← param.mapM (findTest ctx)
      .ok (fun x => tests.any (fun test => test x))

/-- Index-aware conjunction of per-parameter tests over the argument list,
modelling `for (i...) if (!tests[i](args[i])) return false`. -/
def allTestsFrom {V : Type} [JsValues V] : List (V → Bool) → List V → Nat → Bool
  | [], _, _ => true
  | test :: rest, args, i => test (aget args i) && allTestsFrom rest args (i + 1)

/-- `compileParams`: whole-argument-list predicate of a signature, mirroring
the source's rest/0/1/2/many branches. -/
def compileParams {V : Type} [JsValues V] (ctx : Ctx V) (sig : Sig) :
    Except CompileError (List V → Bool) :=
  if sig.restParam then do
    let tests ← (sig.params.take (sig.params.length - 1)).mapM
      (fun p => compileParam ctx (some p))
    let lastTest ← compileParam ctx sig.params.getLast?
    let varIndex := tests.length
    .ok (fun args =>
      allTestsFrom tests args 0 &&
      (args.drop varIndex).all lastTest &&
      decide (varIndex + 1 ≤ args.length))
  else
    match sig.params with
    | [] => .ok (fun args => decide (args.length = 0))
    | [p0] => do
        let test0 ← compileParam ctx (some p0)
        .ok (fun args => test0 (aget args 0) && decide (args.length = 1))
    | [p0, p1] => do
        let test0 ← compileParam ctx (some p0)
        let test1 ← compileParam ctx (some p1)
        .ok (fun args =>
          test0 (aget args 0) && test1 (aget args 1) && decide (args.length = 2))
    | params => do
        let tests ← params.mapM (fun p => compileParam ctx (some p))
        .ok (fun args => allTestsFrom tests args 0 && decide (args.length = tests.length))

/-! ## Error builder (component J) -/

/-- `getExpectedParam`: the param a def expects at argument position `index`;
past the end this is the rest param when present, else the empty param.
(For a rest signature the source reads `params[params.length - 1]`; every
rest signature produced by the parser has at least one param, so the
`getLastD []` default is unreachable there.) -/
def getExpectedParam (sig : Sig) (index : Nat) : Param :=
  match sig.params.get? index with
  | some param => param
  | none => if sig.restParam then sig.params.getLastD [] else []

/-- `isCorrectType`: an expected param accepts an actual type name when it
contains that name or contains `any`. -/
def isCorrectType (expectedParam : Param) (actualType : Str) : Bool :=
  expectedParam.contains actualType || expectedParam.contains (str "any")

/-- Source helper `uniq`: deduplicate keeping first occurrences (insertion
order of `Object.keys`). -/
def jsUniq (arr : List Str) : List Str :=
  arr.foldl (fun acc x => if acc.contains x then acc else acc ++ [x]) []

/-- The `Def` record assembled by `createTypedFunction` for one signature. -/
structure Def (V : Type) where
  signature : Sig
  conversion : Bool
  restParam : Bool
  preprocess : Option (List V → List V)
  test : List V → Bool
  fn : List V → V

/-- `mergeExpectedParams`: union (first-occurrence order, deduplicated) of the
expected params of `defs` at `index`, collapsed to `['any']` when it contains
`any`. -/
def mergeExpectedParams {V : Type} (defs : List (Def V)) (index : Nat) : List Str :=
  let params := jsUniq (defs.flatMap (fun d => getExpectedParam d.signature index))
  if params.contains (str "any") then [str "any"] else params

/-- JavaScript numbers as they appear in the arity checks: `Infinity` for rest
arities, `-Infinity` for `Math.max` of an empty list. -/
inductive ExtNat where
  | negInf
  | fin (n : Nat)
  | inf
deriving DecidableEq, Repr

/-- Strict order on `ExtNat` (the `<` of the source's arity comparisons). -/
def ExtNat.lt : ExtNat → ExtNat → Bool
  | .negInf, .negInf => false
  | .negInf, _ => true
  | .fin _, .negInf => false
  | .fin a, .fin b => a < b
  | .fin _, .inf => true
  | .inf, _ => false

/-- `Math.min` over a list (empty list gives `Infinity`). -/
def extMin (l : List ExtNat) : ExtNat :=
  l.foldr (fun a b => if ExtNat.lt a b then a else b) .inf

/-- `Math.max` over a list (empty list gives `-Infinity`). -/
def extMax (l : List ExtNat) : ExtNat :=
  l.foldr (fun a b => if ExtNat.lt a b then b else a) .negInf

/-- Call-time errors with their structured `data` fields
(`category`, `fn`, `index`, `actual`, `expected`, `expectedLength`). -/
inductive TFError where
  | wrongType (fn : Str) (index : Nat) (actual : Str) (expected : List Str)
  | tooFewArgs (fn : Str) (index : Nat) (expected : List Str)
  | tooManyArgs (fn : Str) (index : Nat) (expectedLength : ExtNat)
  | mismatch (actual : List Str)
deriving DecidableEq, Repr

/-- The `data.category` string of a call-time error. -/
def TFError.category : TFError → Str
  | .wrongType .. => str "wrongType"
  | .tooFewArgs .. => str "tooFewArgs"
  | .tooManyArgs .. => str "tooManyArgs"
  | .mismatch .. => str "mismatch"

/-- The narrowing loop of `createError` followed by its arity checks.
`remaining` is the tail of `actualTypes` from position `index` on.  When the
filter empties the candidate set and the merged expected-type union is
nonempty, the result is a `wrongType` error; when the union is empty the
source falls through without updating `matchingDefs` (there is no `else` on
`if (expected.length > 0)`). -/
def createErrorGo {V : Type} (name : Str) (actualTypes : List Str) :
    List Str → Nat → List (Def V) → TFError
  | [], index, matchingDefs =>
      let lengths := matchingDefs.map (fun d =>
        if d.signature.restParam then ExtNat.inf else ExtNat.fin d.signature.params.length)
      if ExtNat.lt (.fin actualTypes.length) (extMin lengths) then
        .tooFewArgs name actualTypes.length (mergeExpectedParams matchingDefs index)
      else if ExtNat.lt (extMax lengths) (.fin actualTypes.length) then
        .tooManyArgs name actualTypes.length (extMax lengths)
      else
        .mismatch actualTypes
  | actualType :: rest, index, matchingDefs =>
      let nextMatchingDefs := matchingDefs.filter (fun d =>
        isCorrectType (getExpectedParam d.signature index) actualType)
      if nextMatchingDefs.isEmpty then
        let expected := mergeExpectedParams matchingDefs index
        if expected.isEmpty then
          createErrorGo name actualTypes rest (index + 1) matchingDefs
        else
          .wrongType name index actualType expected
      else
        createErrorGo name actualTypes rest (index + 1) nextMatchingDefs

/-- `createError`: classify a failed call against the full def list, using the
call-time registry `types` to name the actual argument types. -/
def createError {V : Type} (types : List (TypeEntry V)) (name : Str) (args : List V)
    (defs : List (Def V)) : TFError :=
  let name' := if name = [] then str "unnamed" else name
  let actualTypes := args.map (findTypeName types)
  createErrorGo name' actualTypes actualTypes 0 defs

/-! ## Signature orderer (component E) -/

/-- `createTypesIndexMap`: name-to-index map over the registry (later
duplicates overwrite earlier ones), with `Object` and `any` forced to the two
largest indices.  Unknown names (unreachable for compiled defs, whose type
names were all resolved by `findTest`) get a sentinel. -/
def createTypesIndexMap {V : Type} (types : List (TypeEntry V)) : Str → Int := fun name =>
  if name = str "any" then types.length + 1
  else if name = str "Object" then types.length
  else
    match ((types.enum).filter (fun p => p.2.name = name)).getLast? with
    | some p => p.1
    | none => types.length + 2

/-- `getLowestTypeIndex`: minimum registry index over the types of a param. -/
def getLowestTypeIndex (param : Param) (typesIndexMap : Str → Int) : Int :=
  match param with
  | [] => 0
  | t :: rest => rest.foldl (fun m x => min m (typesIndexMap x)) (typesIndexMap t)

/-- `compareParams`: specificity comparison of two params. -/
def compareParams (param1 param2 : Param) (typesIndexMap : Str → Int) : Int :=
  getLowestTypeIndex param1 typesIndexMap - getLowestTypeIndex param2 typesIndexMap

/-- The element-wise loop of `compareSignatures` followed by the length
comparison (consuming both lists in lockstep leaves the length difference
unchanged). -/
def compareParamsLists (typesIndexMap : Str → Int) : List Param → List Param → Int
  | p1 :: rest1, p2 :: rest2 =>
      let c := compareParams p1 p2 typesIndexMap
      if c ≠ 0 then c else compareParamsLists typesIndexMap rest1 rest2
  | l1, l2 => (l1.length : Int) - (l2.length : Int)

/-- `compareSignatures`: rest params sort last, then params element-wise, then
fewer params first. -/
def compareSignatures (sig1 sig2 : Sig) (typesIndexMap : Str → Int) : Int :=
  let rest := (if sig1.restParam then (1 : Int) else 0) - (if sig2.restParam then 1 else 0)
  if rest ≠ 0 then rest else compareParamsLists typesIndexMap sig1.params sig2.params

/-- Stable insertion of an element into a comparator-sorted list. -/
def insertCmp {α : Type} (cmp : α → α → Int) (x : α) : List α → List α
  | [] => [x]
  | y :: rest => if cmp x y ≤ 0 then x :: y :: rest else y :: insertCmp cmp x rest

/-- Stable comparator sort modelling `Array.prototype.sort`. -/
def sortWith {α : Type} (cmp : α → α → Int) : List α → List α
  | [] => []
  | x :: rest => insertCmp cmp x (sortWith cmp rest)

/-! ## Conversion expander and compiler (components F and H) -/

/-- `createRestParamPreProcess`: gather the trailing arguments into a single
array argument. -/
def createRestParamPreProcess {V : Type} [JsValues V] (sig : Sig) : List V → List V :=
  fun args =>
    let offset := sig.params.length - 1
    args.take offset ++ [JsValues.varr (args.drop offset)]

/-- Candidate conversions for one param: registry conversions whose target is
in the param, whose source is not, first-win per source, in registry order. -/
def paramConversions {V : Type} (ctx : Ctx V) (param : Param) : List (Conversion V) :=
  ctx.conversions.foldl (fun acc c =>
    if !(param.contains c.from_) && param.contains c.to_ &&
        !(acc.any (fun c' => c'.from_ = c.from_)) then
      acc ++ [c]
    else acc) []

/-- `getConversions`: per-param candidate lists, or `null` when no param has
any candidate. -/
def getConversions {V : Type} (ctx : Ctx V) (params : List Param) :
    Option (List (List (Conversion V))) :=
  let paramConvs := params.map (paramConversions ctx)
  if paramConvs.any (fun l => !l.isEmpty) then some paramConvs else none

/-- `addConvertableParams`: widen each param with the sources of its candidate
conversions. -/
def addConvertableParams {V : Type} (sig : Sig) (conversions : List (List (Conversion V))) :
    Sig :=
  { params := sig.params.zipWith (fun param convs =>
      param ++ convs.map (fun c => c.from_)) conversions
    restParam := sig.restParam }

/-- The `forEach` loop of `compileArgConversion`, pairing each candidate's
source-type test with its `convert`. -/
def convTests {V : Type} (ctx : Ctx V) :
    List (Conversion V) → Except CompileError (List ((V → Bool) × (V → V)))
  | [] => .ok []
  | c :: rest => do
      let test ← findTest ctx c.from_
      let tail ← convTests ctx rest
      .ok ((test, c.convert) :: tail)

/-- `compileArgConversion`: single-argument converter; tries the candidates'
source-type tests in order and applies the first matching `convert`, else
passes the argument through unchanged. -/
def compileArgConversion {V : Type} (ctx : Ctx V) (conversions : List (Conversion V)) :
    Except CompileError (V → V) := do
  let pairs ← convTests ctx conversions
  .ok (fun arg =>
    match pairs.find? (fun p => p.1 arg) with
    | some p => p.2 arg
    | none => arg)

/-- `compileArgsConversion`: argument-list converter wrapped around the
original `fn`.  For a rest def it is invoked on the preprocessed list, whose
last element is the gathered array; that array is converted element-wise. -/
def compileArgsConversion {V : Type} [JsValues V] (ctx : Ctx V) (fn : List V → V)
    (conversions : List (List (Conversion V))) (restParam : Bool) :
    Except CompileError (List V → V) := do
  let compiledConversions ← conversions.mapM (compileArgConversion ctx)
  .ok (fun args =>
    let last := if restParam then args.length - 1 else args.length
    let converted := (List.range last).map (fun i =>
      (compiledConversions.getD i id) (aget args i))
    if restParam then
      fn (converted ++ [JsValues.varr
        (((JsValues.vunarr (aget args last) : List V)).map (compiledConversions.getD last id))])
    else
      fn converted)

/-! ## Dispatcher assembler (component I) -/

/-- The original-def construction loop of `createTypedFunction`: for each
`(signature, fn)` entry, parse, filter ignored types (silently dropping
invalidated signatures), compile the whole-args test, and attach the rest
preprocessor when needed. -/
def buildDefs {V : Type} [JsValues V] (ctx : Ctx V) :
    List (Str × (List V → V)) → Except CompileError (List (Def V))
  | [] => .ok []
  | (signature, fn) :: rest =>
      match parseParams signature with
      | .error e => .error e
      | .ok parsed =>
          match filterIgnoredTypes ctx parsed with
          | none => buildDefs ctx rest
          | some sig =>
              match compileParams ctx sig with
              | .error e => .error e
              | .ok test =>
                  match buildDefs ctx rest with
                  | .error e => .error e
                  | .ok tail =>
                      .ok ({ signature := sig
                             conversion := false
                             restParam := sig.restParam
                             preprocess := if sig.restParam then
                               some (createRestParamPreProcess sig) else none
                             test := test
                             fn := fn } :: tail)

/-- The conversion-expansion loop: for each original def with candidate
conversions, append one widened def whose test is recompiled and whose `fn`
is the conversion wrapper; the original's preprocessor is reused. -/
def buildConvDefs {V : Type} [JsValues V] (ctx : Ctx V) :
    List (Def V) → Except CompileError (List (Def V))
  | [] => .ok []
  | d :: rest =>
      match getConversions ctx d.signature.params with
      | none => buildConvDefs ctx rest
      | some conversions =>
          match compileParams ctx (addConvertableParams d.signature conversions) with
          | .error e => .error e
          | .ok test =>
              match compileArgsConversion ctx d.fn conversions d.restParam with
              | .error e => .error e
              | .ok fn =>
                  match buildConvDefs ctx rest with
                  | .error e => .error e
                  | .ok tail =>
                      .ok ({ signature := addConvertableParams d.signature conversions
                             conversion := true
                             restParam := d.restParam
                             preprocess := d.preprocess
                             test := test
                             fn := fn } :: tail)

/-- Does def `k` qualify for the specialized fast path (`ok0` .. `ok5`)?
It must exist, have at most two params, and no rest param. -/
def okDef {V : Type} (defs : List (Def V)) (k : Nat) : Bool :=
  match defs.get? k with
  | some d => decide (d.signature.params.length ≤ 2) && !d.signature.restParam
  | none => false

/-- `allOk`: the first six defs all qualify for the fast path. -/
def jsAllOk {V : Type} (defs : List (Def V)) : Bool :=
  okDef defs 0 && okDef defs 1 && okDef defs 2 && okDef defs 3 &&
    okDef defs 4 && okDef defs 5

/-- Precomputed fast-path data for one slot: `len_k`, `test_k0`, `test_k1`.
A non-qualifying slot gets `len = -1` (which no argument count equals) and
`notOk` tests. -/
structure FastEntry (V : Type) where
  len : Int
  test0 : V → Bool
  test1 : V → Bool

/-- Compile the fast-path data for slot `k` (the `ok_k ? compileParam(...) :
notOk` assignments in the source, evaluated at construction time). -/
def buildFastEntry {V : Type} (ctx : Ctx V) (defs : List (Def V)) (k : Nat) :
    Except CompileError (FastEntry V) :=
  match defs.get? k with
  | some d =>
      if decide (d.signature.params.length ≤ 2) && !d.signature.restParam then do
        let test0 ← compileParam ctx (d.signature.params.get? 0)
        let test1 ← compileParam ctx (d.signature.params.get? 1)
        .ok ⟨d.signature.params.length, test0, test1⟩
      else .ok ⟨-1, notOk, notOk⟩
  | none => .ok ⟨-1, notOk, notOk⟩

/-- Fast-path data for the six specialized slots (the six `test_k0/test_k1`
assignment groups of the source, evaluated at construction time). -/
def buildFast {V : Type} (ctx : Ctx V) (defs : List (Def V)) :
    Except CompileError (List (FastEntry V)) := do
  let e0 ← buildFastEntry ctx defs 0
  let e1 ← buildFastEntry ctx defs 1
  let e2 ← buildFastEntry ctx defs 2
  let e3 ← buildFastEntry ctx defs 3
  let e4 ← buildFastEntry ctx defs 4
  let e5 ← buildFastEntry ctx defs 5
  .ok [e0, e1, e2, e3, e4, e5]

/-- JavaScript object property assignment on an association list: overwrite an
existing key in place, else append. -/
def objAssign {β : Type} (key : Str) (value : β) (obj : List (Str × β)) : List (Str × β) :=
  if obj.any (fun p => p.1 = key) then
    obj.map (fun p => if p.1 = key then (key, value) else p)
  else obj ++ [(key, value)]

/-- JavaScript object property read on an association list. -/
def objGet {β : Type} (obj : List (Str × β)) (key : Str) : Option β :=
  (obj.find? (fun p => p.1 = key)).map (fun p => p.2)

/-- The `fn.signatures` metadata loop: canonical key of every non-conversion
def, mapped to its `fn`. -/
def buildSigMap {V : Type} (defs : List (Def V)) : List (Str × (List V → V)) :=
  defs.foldl (fun acc d =>
    if d.conversion then acc else objAssign (stringifyParams d.signature) d.fn acc) []

/-- A compiled typed function: everything `createTypedFunction` closed over or
attached before returning. -/
structure Compiled (V : Type) where
  name : Str
  defs : List (Def V)
  fast : List (FastEntry V)
  allOk : Bool
  sigMap : List (Str × (List V → V))

/-- `createTypedFunction`: the whole construction pipeline.  Parse and filter
the signatures map into original defs, sort them by specificity, append the
conversion-expanded defs, precompute the fast path, and attach the public
`signatures` metadata. -/
def createTypedFunction {V : Type} [JsValues V] (ctx : Ctx V) (name : Str)
    (signatures : List (Str × (List V → V))) : Except CompileError (Compiled V) :=
  if signatures.isEmpty then .error .noSignatures
  else do
    let parsedDefs ← buildDefs ctx signatures
    let typesIndexMap := createTypesIndexMap ctx.types
    let sorted := sortWith (fun a b => compareSignatures a.signature b.signature typesIndexMap)
      parsedDefs
    let convDefs ← buildConvDefs ctx sorted
    let defs := sorted ++ convDefs
    let fast ← buildFast ctx defs
    .ok { name := name
          defs := defs
          fast := fast
          allOk := jsAllOk defs
          sigMap := buildSigMap defs }

/-- One fast-path clause: `arguments.length === len_k && test_k0(arg0) &&
test_k1(arg1)`. -/
def fastCond {V : Type} [JsValues V] (entry : FastEntry V) (args : List V) : Bool :=
  ((args.length : Int) == entry.len) && entry.test0 (aget args 0) && entry.test1 (aget args 1)

/-- The sequential fast-path clauses, returning the selected def: clause `k`
fires when `fastCond` holds for the `k`-th precomputed entry. -/
def selectFastGo {V : Type} [JsValues V] (c : Compiled V) (args : List V) :
    List (FastEntry V) → Nat → Option (Def V)
  | [], _ => none
  | entry :: rest, k =>
      if fastCond entry args then c.defs.get? k else selectFastGo c args rest (k + 1)

/-- The fast-path dispatch attempt (the six sequential clauses of `fn`). -/
def selectFast {V : Type} [JsValues V] (c : Compiled V) (args : List V) : Option (Def V) :=
  selectFastGo c args c.fast 0

/-- The def selected by a call: fast-path clauses first, then the generic scan
from `iStart` (6 when all of the first six defs qualified, else 0). -/
def typedSelect {V : Type} [JsValues V] (c : Compiled V) (args : List V) : Option (Def V) :=
  match selectFast c args with
  | some d => some d
  | none => (c.defs.drop (if c.allOk then 6 else 0)).find? (fun d => d.test args)

/-- Invoke a selected def: rest defs get their arguments preprocessed first. -/
def applyDef {V : Type} (d : Def V) (args : List V) : V :=
  if d.restParam then d.fn ((d.preprocess.getD id) args) else d.fn args

/-- A call of the compiled function: dispatch, or build and throw the error.
`ctx` is the call-time registry state; the dispatcher itself only uses data
closed over at construction, while `createError` reads the live
`typed.types`. -/
def invoke {V : Type} [JsValues V] (ctx : Ctx V) (c : Compiled V) (args : List V) :
    Except TFError V :=
  match typedSelect c args with
  | some d => .ok (applyDef d args)
  | none => .error (createError ctx.types c.name args c.defs)

/-- Reference dispatcher from the specification's words: a single linear scan
over the sorted, conversion-expanded def list, with the same failure
behaviour.  (Modelled from the spec for the refinement claim; not a function
of the source.) -/
def invokeScan {V : Type} [JsValues V] (ctx : Ctx V) (c : Compiled V) (args : List V) :
    Except TFError V :=
  match c.defs.find? (fun d => d.test args) with
  | some d => .ok (applyDef d args)
  | none => .error (createError ctx.types c.name args c.defs)

/-! ## Finder (component K) -/

/-- Failures of `find`: the source also throws `NotTyped` for a value without
a `signatures` object, which cannot arise for a `Compiled` value. -/
inductive FindError where
  | notFound
deriving DecidableEq, Repr

/-- `find`: normalize the requested signature (split on commas and trim, or
take the given name sequence), join with commas, and look the canonical key up
on the `signatures` map; exact matches only. -/
def find {V : Type} (c : Compiled V) (signature : Str ⊕ List Str) :
    Except FindError (List V → V) :=
  let arr := match signature with
    | .inl s => (s.splitOn ',').map jsTrim
    | .inr a => a
  let s := List.intercalate [','] arr
  match objGet c.sigMap s with
  | some fn => .ok fn
  | none => .error .notFound

/-! ## A concrete value universe with the built-in registry of `create()` -/

/-- Concrete JavaScript values, sufficient for the built-in type tests. -/
inductive JSValue where
  | num (n : Int)
  | strv (s : Str)
  | bool (b : Bool)
  | func (id : Nat)
  | arr (elems : List JSValue)
  | date
  | regexp
  | obj
  | null
  | undefined

instance : JsValues JSValue where
  undef := .undefined
  varr := .arr
  vunarr := fun v => match v with | .arr l => l | _ => []

def jsIsNumber : JSValue → Bool
  | .num _ => true
  | _ => false

def jsIsString : JSValue → Bool
  | .strv _ => true
  | _ => false

def jsIsBoolean : JSValue → Bool
  | .bool _ => true
  | _ => false

def jsIsFunction : JSValue → Bool
  | .func _ => true
  | _ => false

def jsIsArray : JSValue → Bool
  | .arr _ => true
  | _ => false

def jsIsDate : JSValue → Bool
  | .date => true
  | _ => false

def jsIsRegExp : JSValue → Bool
  | .regexp => true
  | _ => false

/-- `typeof x === 'object'`: objects, arrays, dates, regexps and `null`. -/
def jsIsObject : JSValue → Bool
  | .obj => true
  | .arr _ => true
  | .date => true
  | .regexp => true
  | .null => true
  | _ => false

def jsIsNull : JSValue → Bool
  | .null => true
  | _ => false

def jsIsUndefined : JSValue → Bool
  | .undefined => true
  | _ => false

/-- The registry entry for `any` (test `ok` accepts everything). -/
def anyEntry : TypeEntry JSValue := ⟨str "any", ok⟩

/-- The built-in `_types` list of `create()`, in source order. -/
def builtinTypes : List (TypeEntry JSValue) :=
  [⟨str "number", jsIsNumber⟩,
   ⟨str "string", jsIsString⟩,
   ⟨str "boolean", jsIsBoolean⟩,
   ⟨str "Function", jsIsFunction⟩,
   ⟨str "Array", jsIsArray⟩,
   ⟨str "Date", jsIsDate⟩,
   ⟨str "RegExp", jsIsRegExp⟩,
   ⟨str "Object", jsIsObject⟩,
   ⟨str "null", jsIsNull⟩,
   ⟨str "undefined", jsIsUndefined⟩,
   anyEntry]

/-- A fresh `create()` instance: built-in types, no conversions, empty ignore
list. -/
def jsCtx : Ctx JSValue := ⟨builtinTypes, [], []⟩

/-! ## Concrete fixtures used by the claim theorems -/

/-- A user implementation returning its first argument. -/
def headFn : List JSValue → JSValue := fun args => aget args 0

/-- A user implementation returning the constant string `"rest"`. -/
def restRetFn : List JSValue → JSValue := fun _ => .strv (str "rest")

/-- A user implementation returning the constant number `1`. -/
def oneFn : List JSValue → JSValue := fun _ => .num 1

/-- A user implementation returning the constant number `2`. -/
def twoFn : List JSValue → JSValue := fun _ => .num 2

/-! ## Claim C1: rest-parameter arity -/

/-- C1 (counterexample): `"...number"` does not accept zero arguments.  The
callable compiled from `{ "...number": f }` throws `tooFewArgs` on a
zero-argument call instead of dispatching to the rest signature, because the
compiled test requires `args.length >= varIndex + 1`. -/
theorem c1_counterexample :
    (createTypedFunction jsCtx (str "f") [(str "...number", headFn)]).map
      (fun c => invoke jsCtx c []) =
    .ok (.error (.tooFewArgs (str "f") 0 [str "number"])) := by
  rfl

/-- C1 (amended): the compiled rest-signature tests require at least one
argument per declared parameter, the rest parameter included.  `"...number"`
accepts one or more numbers (zero arguments do not match); `"number,
...string"` requires at least two arguments, the first numeric and every
further one a string. -/
theorem c1_rest_arity : ∀ args : List JSValue,
    ((parseParams (str "...number")).bind
        (fun sig => (compileParams jsCtx sig).map (fun t => t args)) =
      .ok (decide (1 ≤ args.length) && args.all jsIsNumber)) ∧
    ((parseParams (str "number, ...string")).bind
        (fun sig => (compileParams jsCtx sig).map (fun t => t args)) =
      .ok (decide (2 ≤ args.length) && jsIsNumber (aget args 0) &&
        (args.drop 1).all jsIsString)) := by
  intro args
  constructor
  · show Except.ok (allTestsFrom [] args 0 && (args.drop 0).all jsIsNumber &&
      decide (0 + 1 ≤ args.length)) = _
    simp only [allTestsFrom, List.drop_zero, Nat.zero_add, Bool.true_and]
    rw [Bool.and_comm]
  · show Except.ok (allTestsFrom [jsIsNumber] args 0 && (args.drop 1).all jsIsString &&
      decide (1 + 1 ≤ args.length)) = _
    simp only [allTestsFrom, Bool.and_true]
    congr 1
    cases h0 : jsIsNumber (aget args 0) <;>
      cases h1 : (args.drop 1).all jsIsString <;>
      cases h2 : decide (2 ≤ args.length) <;> simp_all

/-! ## Claim C4: conversion wrapper behaviour -/

/-- A registry with two conversions: `Array -> Object` and
`number -> string`, both returning marker strings so a conversion that ran is
observable. -/
def ctx4 : Ctx JSValue :=
  { jsCtx with conversions :=
      [⟨str "Array", str "Object", fun _ => .strv (str "conv")⟩,
       ⟨str "number", str "string", fun _ => .strv (str "num")⟩] }

/-- Every pair produced by `convTests` comes from a conversion in the input
list, with its test resolved by `findTest`. -/
theorem convTests_mem {V : Type} {ctx : Ctx V} :
    ∀ {convs : List (Conversion V)} {pairs}, convTests ctx convs = .ok pairs →
      ∀ p ∈ pairs, ∃ c ∈ convs, findTest ctx c.from_ = .ok p.1 := by
  intro convs
  induction convs with
  | nil =>
      intro pairs h p hp
      simp only [convTests] at h
      cases h
      simp at hp
  | cons c rest ih =>
      intro pairs h p hp
      simp only [convTests] at h
      cases ht : findTest ctx c.from_ with
      | error e =>
          rw [ht] at h
          cases h
      | ok test =>
          rw [ht] at h
          cases htl : convTests ctx rest with
          | error e =>
              rw [htl] at h
              cases h
          | ok tail =>
              rw [htl] at h
              injection h with h
              subst h
              rcases List.mem_cons.mp hp with hp | hp
              · exact ⟨c, List.mem_cons_self c rest, by rw [hp]; exact ht⟩
              · obtain ⟨c', hc', hfc'⟩ := ih htl p hp
                exact ⟨c', List.mem_cons_of_mem c hc', hfc'⟩

/-- C4 (amended): the compiled argument converter passes an argument through
unchanged whenever it fails the source-type test of every candidate
conversion.  (The claim's condition, the argument already satisfying the
original param's test, does not suffice: candidate sources are excluded from
the param by name only, and their tests may overlap the param's tests.) -/
theorem c4_convert_skipped {V : Type} (ctx : Ctx V) (conversions : List (Conversion V))
    (g : V → V) (arg : V)
    (hok : compileArgConversion ctx conversions = .ok g)
    (hmiss : ∀ c ∈ conversions, ∀ t, findTest ctx c.from_ = .ok t → t arg = false) :
    g arg = arg := by
  unfold compileArgConversion at hok
  cases hct : convTests ctx conversions with
  | error e =>
      rw [hct] at hok
      cases hok
  | ok pairs =>
      rw [hct] at hok
      injection hok with hok
      have hfind : pairs.find? (fun p => p.1 arg) = none := by
        rw [List.find?_eq_none]
        intro p hp
        obtain ⟨c, hc, hfc⟩ := convTests_mem hct p hp
        simp [hmiss c hc p.1 hfc]
      rw [← hok]
      simp [hfind]

/-- C4 (counterexample): with conversions `Array -> Object` and
`number -> string` and the single signature `"Object, string"`, calling with
`([], 1)` runs the `Array -> Object` conversion on the array argument even
though that argument already satisfies the original param's `Object` test:
the call returns the conversion's marker value instead of the array. -/
theorem c4_counterexample :
    (createTypedFunction ctx4 (str "f") [(str "Object, string", headFn)]).map
        (fun c => invoke ctx4 c [.arr [], .num 1]) =
      .ok (.ok (.strv (str "conv"))) ∧
    (findTest ctx4 (str "Object")).map (fun t => t (.arr [])) = .ok true :=
  ⟨rfl, rfl⟩

/-- A single `boolean -> number` conversion candidate, used to witness the
amended C4. -/
def c4conv : List (Conversion JSValue) := [⟨str "boolean", str "number", fun _ => .num 1⟩]

/-- The compiled converter for `c4conv`. -/
def c4g : JSValue → JSValue := (compileArgConversion jsCtx c4conv).toOption.getD id

/-- Witness for the amended C4 at a concrete input: a string argument fails
the `boolean` source test, so it passes through unchanged. -/
theorem c4_witness : c4g (.strv (str "x")) = .strv (str "x") :=
  c4_convert_skipped jsCtx c4conv c4g (.strv (str "x")) rfl
    (by
      intro c hc t ht
      simp only [c4conv, List.mem_singleton] at hc
      subst hc
      have : findTest jsCtx (str "boolean") = .ok jsIsBoolean := rfl
      rw [this] at ht
      cases ht
      rfl)

/-! ## Claim C8: uniqueness of `(signature, fromConversion)` pairs -/

/-- C8 (counterexample): the compiler performs no deduplication.  The two
distinct input strings `"number"` and `"number "` normalize to the same
signature and both produce an original def, so the final def list contains two
defs with the identical pair `(signature, fromConversion)`. -/
theorem c8_counterexample :
    (createTypedFunction jsCtx (str "f") [(str "number", oneFn), (str "number ", twoFn)]).map
        (fun c => c.defs.map (fun d => (d.signature, d.conversion))) =
      .ok [(⟨[[str "number"]], false⟩, false), (⟨[[str "number"]], false⟩, false)] :=
  rfl

/-- C8 (amended): what does hold of the expansion itself: a conversion-expanded
signature always differs from the original it widens (some param strictly
grows), so an original def and its own conversion-expanded twin never share a
`(signature, fromConversion)` pair; distinct input strings normalizing to the
same signature, however, do produce duplicate pairs. -/
theorem c8_expansion_widens {V : Type} (ctx : Ctx V) (sig : Sig)
    (conversions : List (List (Conversion V)))
    (h : getConversions ctx sig.params = some conversions) :
    addConvertableParams sig conversions ≠ sig := by
  unfold getConversions at h
  by_cases hany : (sig.params.map (paramConversions ctx)).any (fun l => !l.isEmpty)
  · rw [if_pos hany] at h
    injection h with h
    subst h
    obtain ⟨l, hl, hne⟩ := List.any_eq_true.mp hany
    obtain ⟨i, hi, hget⟩ := List.mem_iff_getElem.mp hl
    rw [List.length_map] at hi
    intro heq
    have hparams := congrArg Sig.params heq
    simp only [addConvertableParams] at hparams
    have hzip := congrArg (fun l => l[i]?) hparams
    simp only [List.getElem?_zipWith', List.getElem?_map, List.getElem?_eq_getElem hi,
      Option.map_some', Option.some_bind, Option.some.injEq] at hzip
    have hlen := congrArg List.length hzip
    rw [List.length_append, List.length_map] at hlen
    have hz : (paramConversions ctx sig.params[i]).length = 0 := by omega
    rw [List.length_eq_zero] at hz
    have hgetm : (List.map (paramConversions ctx) sig.params)[i] =
        paramConversions ctx sig.params[i] := List.getElem_map _
    rw [hgetm, hz] at hget
    rw [← hget] at hne
    simp at hne
  · rw [if_neg hany] at h
    cases h

/-- A registry carrying a single `boolean -> number` conversion. -/
def ctxConvBN : Ctx JSValue :=
  { jsCtx with conversions := [⟨str "boolean", str "number", fun _ => .num 1⟩] }

/-- Witness for the amended C8 at a concrete input: expanding `"number"` by
the `boolean -> number` conversion yields a different signature. -/
theorem c8_witness :
    addConvertableParams ⟨[[str "number"]], false⟩
        ([[⟨str "boolean", str "number", fun _ => JSValue.num 1⟩]] :
          List (List (Conversion JSValue))) ≠ ⟨[[str "number"]], false⟩ :=
  c8_expansion_widens ctxConvBN ⟨[[str "number"]], false⟩ _ rfl

/-! ## Claim C10: all signatures discarded by ignored-type filtering -/

/-- When every entry parses but is discarded by ignored-type filtering, the
def-construction loop succeeds with an empty def list. -/
theorem buildDefs_all_filtered {V : Type} [JsValues V] (ctx : Ctx V) :
    ∀ signatures : List (Str × (List V → V)),
      (∀ p ∈ signatures, ∃ parsed, parseParams p.1 = .ok parsed ∧
        filterIgnoredTypes ctx parsed = none) →
      buildDefs ctx signatures = .ok [] := by
  intro signatures
  induction signatures with
  | nil => intro _; rfl
  | cons p rest ih =>
      intro h
      obtain ⟨parsed, hparse, hfil⟩ := h p (List.mem_cons_self p rest)
      show buildDefs ctx (p :: rest) = .ok []
      obtain ⟨s, f⟩ := p
      simp only [buildDefs]
      rw [hparse]
      show (match filterIgnoredTypes ctx parsed with
        | none => buildDefs ctx rest
        | some sig => _) = .ok []
      rw [hfil]
      exact ih (fun q hq => h q (List.mem_cons_of_mem (s, f) hq))

/-- With no defs at all, the error builder always reports `tooFewArgs` with an
empty expected list (every length is below `Math.min()` = `Infinity`). -/
theorem createErrorGo_nil {V : Type} (name : Str) (actualTypes : List Str) :
    ∀ (remaining : List Str) (index : Nat),
      createErrorGo (V := V) name actualTypes remaining index [] =
        .tooFewArgs name actualTypes.length [] := by
  intro remaining
  induction remaining with
  | nil =>
      intro index
      rfl
  | cons t rest ih =>
      intro index
      show createErrorGo name actualTypes rest (index + 1) [] = _
      exact ih (index + 1)

/-- The fast-path entry compiled for a non-qualifying slot. -/
def defaultFastEntry {V : Type} : FastEntry V := ⟨-1, notOk, notOk⟩

/-- The callable compiled from a signatures map whose every entry was
discarded: no defs, no fast path, empty metadata. -/
def emptyCompiled {V : Type} (name : Str) : Compiled V :=
  { name := name
    defs := []
    fast := List.replicate 6 defaultFastEntry
    allOk := false
    sigMap := [] }

/-- A fast-path entry with `len = -1` never fires: no argument count equals
`-1`. -/
theorem fastCond_default_false {V : Type} [JsValues V] (args : List V)
    (t0 t1 : V → Bool) : fastCond ⟨-1, t0, t1⟩ args = false := by
  unfold fastCond
  have : ((args.length : Int) == (-1 : Int)) = false := by
    rw [beq_eq_false_iff_ne]
    omega
  rw [this]
  rfl

/-- C10: a non-empty signatures map in which every signature is discarded by
ignored-type filtering compiles successfully (no `NoSignatures` error) to a
callable with an empty public `signatures` map and an empty def list, and
every invocation of that callable throws an error whose category is
`tooFewArgs`. -/
theorem c10_all_filtered {V : Type} [JsValues V] (ctx : Ctx V) (name : Str)
    (signatures : List (Str × (List V → V)))
    (hne : signatures ≠ [])
    (hfiltered : ∀ p ∈ signatures, ∃ parsed, parseParams p.1 = .ok parsed ∧
      filterIgnoredTypes ctx parsed = none) :
    ∃ c, createTypedFunction ctx name signatures = .ok c ∧ c.sigMap = [] ∧ c.defs = [] ∧
      ∀ (callCtx : Ctx V) (args : List V),
        invoke callCtx c args =
          .error (.tooFewArgs (if name = [] then str "unnamed" else name) args.length []) := by
  have hbuild := buildDefs_all_filtered ctx signatures hfiltered
  have hempty : signatures.isEmpty = false := by
    cases signatures with
    | nil => exact absurd rfl hne
    | cons a l => rfl
  refine ⟨emptyCompiled name, ?_, rfl, rfl, ?_⟩
  · unfold createTypedFunction
    rw [hempty]
    rw [if_neg (by decide)]
    rw [hbuild]
    rfl
  · intro callCtx args
    have hgo : ∀ (fs : List (FastEntry V)) (k : Nat),
        (∀ e ∈ fs, e = defaultFastEntry) →
        selectFastGo (emptyCompiled (V := V) name) args fs k = none := by
      intro fs
      induction fs with
      | nil => intro k _; rfl
      | cons e rest ih =>
          intro k hall
          show (if fastCond e args then _ else _) = none
          rw [hall e (List.mem_cons_self e rest)]
          rw [show (defaultFastEntry : FastEntry V) = ⟨-1, notOk, notOk⟩ from rfl]
          rw [fastCond_default_false]
          show selectFastGo _ args rest (k + 1) = none
          exact ih (k + 1) (fun e' he' => hall e' (List.mem_cons_of_mem e he'))
    have hsel : typedSelect (emptyCompiled (V := V) name) args = none := by
      unfold typedSelect selectFast
      rw [hgo (emptyCompiled (V := V) name).fast 0
        (fun e he => List.eq_of_mem_replicate
          (show e ∈ List.replicate 6 defaultFastEntry from he))]
      rfl
    unfold invoke
    rw [hsel]
    show Except.error (createError callCtx.types name args ([] : List (Def V))) = _
    unfold createError
    rw [createErrorGo_nil]
    simp

/-- A registry ignoring the type name `number`. -/
def ctxIgn : Ctx JSValue := { jsCtx with ignore := [str "number"] }

/-- Witness for C10 at a concrete input: with `number` ignored, compiling
`{ "number": f }` succeeds with an empty def list and a one-argument call
throws `tooFewArgs`. -/
theorem c10_witness :
    ∃ c, createTypedFunction ctxIgn (str "f") [(str "number", oneFn)] = .ok c ∧
      c.sigMap = [] ∧
      invoke jsCtx c [JSValue.strv (str "x")] =
        .error (.tooFewArgs (str "f") 1 []) := by
  obtain ⟨c, hc, hmap, hdefs, hinv⟩ := c10_all_filtered ctxIgn (str "f")
    [(str "number", oneFn)] (List.cons_ne_nil _ _)
    (by
      intro p hp
      rw [List.mem_singleton] at hp
      subst hp
      exact ⟨⟨[[str "number"]], false⟩, rfl, rfl⟩)
  refine ⟨c, hc, hmap, ?_⟩
  have := hinv jsCtx [JSValue.strv (str "x")]
  simpa using this

/-! ## Claim C7: the error builder's position-wise narrowing -/

/-- Reading a list at an in-bounds index ignores the `getD` default. -/
theorem getD_lt {α : Type} (l : List α) {i : Nat} (h : i < l.length) (d : α) :
    l.getD i d = l[i] := by
  rw [List.getD_eq_getElem?_getD, List.getElem?_eq_getElem h]
  rfl

/-- One narrowing step of `createError`: keep the defs whose expected param at
`index` accepts the actual type observed there. -/
def narrowStep {V : Type} (actualTypes : List Str) (index : Nat) (defs : List (Def V)) :
    List (Def V) :=
  defs.filter (fun d =>
    isCorrectType (getExpectedParam d.signature index) (actualTypes.getD index (str "unknown")))

/-- The candidate def set after narrowing on the first `i` argument
positions. -/
def narrow {V : Type} (defs : List (Def V)) (actualTypes : List Str) : Nat → List (Def V)
  | 0 => defs
  | i + 1 => narrowStep actualTypes i (narrow defs actualTypes i)

/-- The narrowing loop of `createErrorGo` returns `wrongType` as soon as a
step empties a so-far-nonempty candidate set with a nonempty expected union. -/
theorem createErrorGo_wrongType {V : Type} (nm : Str) (full : List Str)
    (defs : List (Def V)) :
    ∀ (k idx : Nat) (m : List (Def V)),
      idx + k < full.length →
      m = narrow defs full idx →
      (∀ j, idx ≤ j → j < idx + k → narrow defs full (j + 1) ≠ []) →
      narrow defs full (idx + k + 1) = [] →
      mergeExpectedParams (narrow defs full (idx + k)) (idx + k) ≠ [] →
      createErrorGo nm full (full.drop idx) idx m =
        .wrongType nm (idx + k) (full.getD (idx + k) (str "unknown"))
          (mergeExpectedParams (narrow defs full (idx + k)) (idx + k)) := by
  intro k
  induction k with
  | zero =>
      intro idx m hlen hm hprev hempty hne
      have hidx : idx < full.length := by omega
      rw [List.drop_eq_getElem_cons hidx]
      show (let nextMatchingDefs := m.filter (fun d =>
          isCorrectType (getExpectedParam d.signature idx) full[idx])
        if nextMatchingDefs.isEmpty then _ else _) = _
      have hstep : m.filter (fun d =>
          isCorrectType (getExpectedParam d.signature idx) full[idx]) =
          narrow defs full (idx + 1) := by
        show _ = narrowStep full idx (narrow defs full idx)
        rw [← hm]
        unfold narrowStep
        rw [getD_lt _ hidx]
      simp only [hstep]
      rw [show narrow defs full (idx + 1) = [] from hempty]
      show (if ([] : List (Def V)).isEmpty then
          (if (mergeExpectedParams m idx).isEmpty then _ else _) else _) = _
      rw [show ([] : List (Def V)).isEmpty = true from rfl]
      have hm' : mergeExpectedParams m idx = mergeExpectedParams (narrow defs full idx) idx := by
        rw [hm]
      rw [if_pos rfl]
      rw [hm']
      have hnotempty : (mergeExpectedParams (narrow defs full idx) idx).isEmpty = false := by
        cases hcase : mergeExpectedParams (narrow defs full idx) idx with
        | nil => exact absurd hcase hne
        | cons a l => rfl
      rw [hnotempty]
      show TFError.wrongType nm idx full[idx] _ = _
      simp only [Nat.add_zero]
      rw [getD_lt _ hidx]
  | succ k ih =>
      intro idx m hlen hm hprev hempty hne
      have hidx : idx < full.length := by omega
      rw [List.drop_eq_getElem_cons hidx]
      have hstep : m.filter (fun d =>
          isCorrectType (getExpectedParam d.signature idx) full[idx]) =
          narrow defs full (idx + 1) := by
        show _ = narrowStep full idx (narrow defs full idx)
        rw [← hm]
        unfold narrowStep
        rw [getD_lt _ hidx]
      show (if (m.filter (fun d =>
          isCorrectType (getExpectedParam d.signature idx) full[idx])).isEmpty
        then _ else _) = _
      rw [hstep]
      have hne1 : narrow defs full (idx + 1) ≠ [] := hprev idx (le_refl idx) (by omega)
      have hnotempty : (narrow defs full (idx + 1)).isEmpty = false := by
        cases hcase : narrow defs full (idx + 1) with
        | nil => exact absurd hcase hne1
        | cons a l => rfl
      rw [hnotempty]
      show createErrorGo nm full (full.drop (idx + 1)) (idx + 1) (narrow defs full (idx + 1)) = _
      have harith : idx + 1 + k = idx + (k + 1) := by omega
      have := ih (idx + 1) (narrow defs full (idx + 1)) (by omega) rfl
        (fun j hj1 hj2 => hprev j (by omega) (by omega))
        (by rw [harith]; exact hempty)
        (by rw [harith]; exact hne)
      rw [this, harith]

/-- C7 (amended): when no def matches, the error builder narrows the def set
position by position; at the first index `i` at which the filtered set
becomes empty, *if* the union of expected types across the still-viable defs
at `i` is nonempty, it returns a `wrongType` error carrying `i`, the observed
type at `i`, and that union.  (When the union is empty -- every surviving def
is already past its arity -- the loop instead continues with the unreduced
set and an arity error results; see the counterexample.) -/
theorem c7_wrongType {V : Type} (types : List (TypeEntry V)) (name : Str) (args : List V)
    (defs : List (Def V)) (i : Nat)
    (hi : i < args.length)
    (hprev : ∀ j, j < i → narrow defs (args.map (findTypeName types)) (j + 1) ≠ [])
    (hempty : narrow defs (args.map (findTypeName types)) (i + 1) = [])
    (hne : mergeExpectedParams (narrow defs (args.map (findTypeName types)) i) i ≠ []) :
    createError types name args defs =
      .wrongType (if name = [] then str "unnamed" else name) i
        ((args.map (findTypeName types)).getD i (str "unknown"))
        (mergeExpectedParams (narrow defs (args.map (findTypeName types)) i) i) := by
  unfold createError
  have hlen : (0 : Nat) + i < (args.map (findTypeName types)).length := by
    rw [List.length_map]
    omega
  have := createErrorGo_wrongType (if name = [] then str "unnamed" else name)
    (args.map (findTypeName types)) defs i 0 defs hlen rfl
    (fun j hj1 hj2 => hprev j (by omega))
    (by rw [show (0 : Nat) + i + 1 = i + 1 by omega]; exact hempty)
    (by rw [show (0 : Nat) + i = i by omega]; exact hne)
  rw [show (args.map (findTypeName types)).drop 0 = args.map (findTypeName types)
    from List.drop_zero _] at this
  rw [this]
  rw [show (0 : Nat) + i = i by omega]

/-- C7 (counterexample): the claim fails when the expected union at the first
emptying index is empty.  For the callable from `{ "number": f }` and the
call `(1, 2)`, the candidate set becomes empty at index 1 (the def has no
param there), yet `createError` returns a `tooManyArgs` error, not
`wrongType`. -/
theorem c7_counterexample :
    (createTypedFunction jsCtx (str "f") [(str "number", oneFn)]).map
        (fun c =>
          (createError builtinTypes (str "f") [JSValue.num 1, JSValue.num 2] c.defs,
            (narrow c.defs [str "number", str "number"] 1).length,
            narrow c.defs [str "number", str "number"] 2)) =
      .ok (.tooManyArgs (str "f") 2 (.fin 1), 1, []) :=
  rfl

/-- The callable compiled from `{ "number": f, "string": g }`, used to witness
the amended C7. -/
def c7c : Compiled JSValue :=
  (createTypedFunction jsCtx (str "f")
    [(str "number", oneFn), (str "string", twoFn)]).toOption.getD (emptyCompiled (str "f"))

/-- Witness for the amended C7 at a concrete input: calling the `number`/
`string` callable with a boolean empties the candidate set at index 0 with a
nonempty expected union, producing the described `wrongType` error. -/
theorem c7_witness :
    createError builtinTypes (str "f") [JSValue.bool true] c7c.defs =
      .wrongType (str "f") 0 (str "boolean") [str "number", str "string"] := by
  have h := c7_wrongType builtinTypes (str "f") [JSValue.bool true] c7c.defs 0
    (by decide)
    (fun j hj => absurd hj (by omega))
    (by rfl)
    (by decide)
  exact h

/-! ## Claim C5: registry mutation does not affect existing callables -/

/-- Appending a registry entry does not change the name `createError` reports
for any value, provided some existing entry's test accepts everything (the
built-in `any`): the first matching entry is found before the appended one. -/
theorem findTypeName_append {V : Type} (T : List (TypeEntry V)) (t : TypeEntry V) (v : V)
    (hany : ∃ e ∈ T, ∀ w, e.test w = true) :
    findTypeName (T ++ [t]) v = findTypeName T v := by
  unfold findTypeName
  obtain ⟨e, he, hall⟩ := hany
  have hsome : (T.find? (fun entry => entry.test v)).isSome := by
    rw [List.find?_isSome]
    exact ⟨e, he, hall v⟩
  rw [List.find?_append]
  cases hf : T.find? (fun entry => entry.test v) with
  | none =>
      rw [hf] at hsome
      simp at hsome
  | some x => rfl

/-- C5: mutating the registries after a callable has been compiled changes no
observable behaviour of that callable.  `addType` appends after the always-
matching `any` entry, so even the error builder's live read of `typed.types`
reports the same actual types; `addConversion` is not read at call time at
all.  Dispatch outcome, returned value and thrown error are identical. -/
theorem c5_registry_mutation {V : Type} [JsValues V] (ctx : Ctx V) (name : Str)
    (signatures : List (Str × (List V → V))) (c : Compiled V)
    (hc : createTypedFunction ctx name signatures = .ok c)
    (hany : ∃ e ∈ ctx.types, ∀ v, e.test v = true)
    (t : TypeEntry V) (conv : Conversion V) :
    ∀ args : List V,
      invoke (addType ctx t) c args = invoke ctx c args ∧
      invoke (addConversion ctx conv) c args = invoke ctx c args := by
  intro args
  constructor
  · unfold invoke
    cases hsel : typedSelect c args with
    | some d => rfl
    | none =>
        show Except.error (createError (addType ctx t).types c.name args c.defs) =
          Except.error (createError ctx.types c.name args c.defs)
        unfold createError
        have hmap : args.map (findTypeName (addType ctx t).types) =
            args.map (findTypeName ctx.types) := by
          apply List.map_congr_left
          intro v _
          exact findTypeName_append ctx.types t v hany
        rw [show (addType ctx t).types = ctx.types ++ [t] from rfl] at hmap ⊢
        rw [hmap]
  · rfl

/-- The callable compiled from `{ "number": f }`, used to witness C5. -/
def c5c : Compiled JSValue :=
  (createTypedFunction jsCtx (str "f") [(str "number", oneFn)]).toOption.getD
    (emptyCompiled (str "f"))

/-- Witness for C5 at a concrete input: a call that takes the error path
behaves the same before and after `addType`/`addConversion`. -/
theorem c5_witness :
    invoke (addType jsCtx ⟨str "foo", jsIsBoolean⟩) c5c [JSValue.bool true] =
      invoke jsCtx c5c [JSValue.bool true] ∧
    invoke (addConversion jsCtx ⟨str "boolean", str "number", fun _ => JSValue.num 1⟩) c5c
      [JSValue.bool true] = invoke jsCtx c5c [JSValue.bool true] :=
  c5_registry_mutation jsCtx (str "f") [(str "number", oneFn)] c5c rfl
    ⟨anyEntry, by simp [jsCtx, builtinTypes], fun v => rfl⟩
    ⟨str "foo", jsIsBoolean⟩ ⟨str "boolean", str "number", fun _ => JSValue.num 1⟩
    [JSValue.bool true]

/-! ## Claim C6: the public `signatures` metadata -/

theorem mem_insertCmp {α : Type} (cmp : α → α → Int) (x y : α) :
    ∀ l : List α, y ∈ insertCmp cmp x l ↔ y = x ∨ y ∈ l := by
  intro l
  induction l with
  | nil => simp [insertCmp]
  | cons z rest ih =>
      unfold insertCmp
      by_cases h : cmp x z ≤ 0
      · rw [if_pos h]
        simp
      · rw [if_neg h]
        simp only [List.mem_cons, ih]
        tauto

theorem mem_sortWith {α : Type} (cmp : α → α → Int) (x : α) :
    ∀ l : List α, x ∈ sortWith cmp l ↔ x ∈ l := by
  intro l
  induction l with
  | nil => simp [sortWith]
  | cons y rest ih =>
      unfold sortWith
      rw [mem_insertCmp, ih]
      simp

/-- Inverting a successful `Except` bind. -/
theorem bind_ok_inv {e a b : Type} {ma : Except e a} {f : a → Except e b} {v : b}
    (h : (ma >>= f) = .ok v) : ∃ x, ma = .ok x ∧ f x = .ok v := by
  cases ma with
  | error err => cases h
  | ok x => exact ⟨x, rfl, h⟩

/-- Inversion of a successful `createTypedFunction`: names for the
intermediate results and the shape of the compiled record. -/
theorem createTypedFunction_inv {V : Type} [JsValues V] {ctx : Ctx V} {name : Str}
    {signatures : List (Str × (List V → V))} {c : Compiled V}
    (hc : createTypedFunction ctx name signatures = .ok c) :
    ∃ (parsedDefs convDefs : List (Def V)) (fast : List (FastEntry V)),
      buildDefs ctx signatures = .ok parsedDefs ∧
      buildConvDefs ctx (sortWith
        (fun a b => compareSignatures a.signature b.signature (createTypesIndexMap ctx.types))
        parsedDefs) = .ok convDefs ∧
      buildFast ctx (sortWith
        (fun a b => compareSignatures a.signature b.signature (createTypesIndexMap ctx.types))
        parsedDefs ++ convDefs) = .ok fast ∧
      c = { name := name
            defs := sortWith
              (fun a b => compareSignatures a.signature b.signature
                (createTypesIndexMap ctx.types)) parsedDefs ++ convDefs
            fast := fast
            allOk := jsAllOk (sortWith
              (fun a b => compareSignatures a.signature b.signature
                (createTypesIndexMap ctx.types)) parsedDefs ++ convDefs)
            sigMap := buildSigMap (sortWith
              (fun a b => compareSignatures a.signature b.signature
                (createTypesIndexMap ctx.types)) parsedDefs ++ convDefs) } := by
  unfold createTypedFunction at hc
  by_cases hemp : signatures.isEmpty
  · rw [if_pos hemp] at hc
    cases hc
  · rw [if_neg hemp] at hc
    obtain ⟨parsedDefs, hbd, hc⟩ := bind_ok_inv hc
    obtain ⟨convDefs, hcv, hc⟩ := bind_ok_inv hc
    obtain ⟨fast, hbf, hc⟩ := bind_ok_inv hc
    injection hc with hc
    exact ⟨parsedDefs, convDefs, fast, hbd, hcv, hbf, hc.symm⟩

/-- Characterization of the original defs built by `buildDefs`: their
signatures are exactly the parsed-and-surviving input signatures, they are
not conversion defs, and their test is the compiled test of their
signature. -/
theorem buildDefs_mem {V : Type} [JsValues V] (ctx : Ctx V) :
    ∀ (signatures : List (Str × (List V → V))) (l : List (Def V)),
      buildDefs ctx signatures = .ok l →
      (∀ d ∈ l, d.conversion = false ∧ compileParams ctx d.signature = .ok d.test ∧
        d.restParam = d.signature.restParam) ∧
      (∀ s : Sig, (∃ d ∈ l, d.signature = s) ↔
        (∃ p ∈ signatures, ∃ parsed, parseParams p.1 = .ok parsed ∧
          filterIgnoredTypes ctx parsed = some s)) := by
  intro signatures
  induction signatures with
  | nil =>
      intro l h
      cases h
      constructor
      · intro d hd
        simp at hd
      · intro s
        constructor
        · rintro ⟨d, hd, -⟩
          simp at hd
        · rintro ⟨p, hp, -⟩
          simp at hp
  | cons p rest ih =>
      intro l h
      obtain ⟨ps, pf⟩ := p
      simp only [buildDefs] at h
      split at h
      · cases h
      · rename_i parsed hparse
        split at h
        · rename_i hfil
          obtain ⟨hall, hmem⟩ := ih l h
          refine ⟨hall, fun s => ?_⟩
          rw [hmem s]
          constructor
          · rintro ⟨q, hq, hrest⟩
            exact ⟨q, List.mem_cons_of_mem _ hq, hrest⟩
          · rintro ⟨q, hq, parsed', hparse', hfil'⟩
            rcases List.mem_cons.mp hq with hq | hq
            · subst hq
              simp only at hparse'
              rw [hparse] at hparse'
              injection hparse' with hparse'
              subst hparse'
              rw [hfil] at hfil'
              cases hfil'
            · exact ⟨q, hq, parsed', hparse', hfil'⟩
        · rename_i sig hfil
          split at h
          · cases h
          · rename_i test hcp
            split at h
            · cases h
            · rename_i tail htl
              injection h with h
              subst h
              obtain ⟨hall, hmem⟩ := ih tail htl
              constructor
              · intro d hd
                rcases List.mem_cons.mp hd with hd | hd
                · subst hd
                  exact ⟨rfl, by rw [hcp], rfl⟩
                · exact hall d hd
              · intro s
                constructor
                · rintro ⟨d, hd, hds⟩
                  rcases List.mem_cons.mp hd with hd | hd
                  · subst hd
                    exact ⟨(ps, pf), List.mem_cons_self _ _, parsed, hparse,
                      by rw [← hds]; exact hfil⟩
                  · obtain ⟨q, hq, w⟩ := (hmem s).mp ⟨d, hd, hds⟩
                    exact ⟨q, List.mem_cons_of_mem _ hq, w⟩
                · rintro ⟨q, hq, parsed', hparse', hfil'⟩
                  rcases List.mem_cons.mp hq with hq | hq
                  · subst hq
                    simp only at hparse'
                    rw [hparse] at hparse'
                    injection hparse' with hparse'
                    subst hparse'
                    rw [hfil] at hfil'
                    injection hfil' with hfil'
                    exact ⟨_, List.mem_cons_self _ _, hfil'⟩
                  · obtain ⟨d, hd, hds⟩ := (hmem s).mpr ⟨q, hq, parsed', hparse', hfil'⟩
                    exact ⟨d, List.mem_cons_of_mem _ hd, hds⟩

/-- Every def produced by the conversion-expansion loop is marked as a
conversion def, and its test is the compiled test of its (widened)
signature. -/
theorem buildConvDefs_conv {V : Type} [JsValues V] (ctx : Ctx V) :
    ∀ (defs l : List (Def V)), buildConvDefs ctx defs = .ok l →
      ∀ d ∈ l, d.conversion = true ∧ compileParams ctx d.signature = .ok d.test := by
  intro defs
  induction defs with
  | nil =>
      intro l h d hd
      cases h
      simp at hd
  | cons d0 rest ih =>
      intro l h d hd
      simp only [buildConvDefs] at h
      split at h
      · exact ih l h d hd
      · rename_i conversions hgc
        split at h
        · cases h
        · rename_i test hcp
          split at h
          · cases h
          · rename_i cfn hca
            split at h
            · cases h
            · rename_i tail htl
              injection h with h
              subst h
              rcases List.mem_cons.mp hd with hd | hd
              · subst hd
                exact ⟨rfl, by rw [hcp]⟩
              · exact ih tail htl d hd

/-- The key list after a JavaScript property assignment: unchanged when the
key was present (the value is overwritten in place), else extended by the
key. -/
theorem objAssign_fst {β : Type} (key : Str) (value : β) (obj : List (Str × β)) :
    (objAssign key value obj).map Prod.fst =
      if obj.any (fun p => p.1 = key) then obj.map Prod.fst
      else obj.map Prod.fst ++ [key] := by
  unfold objAssign
  by_cases h : obj.any (fun p => p.1 = key)
  · rw [if_pos h, if_pos h, List.map_map]
    apply List.map_congr_left
    intro p _
    by_cases hc : p.1 = key
    · simp [hc]
    · simp [hc]
  · rw [if_neg h, if_neg h, List.map_append]
    rfl

/-- Keys after a JavaScript property assignment: the old keys plus the
assigned one. -/
theorem objAssign_keys {β : Type} (key : Str) (value : β) (obj : List (Str × β)) (k : Str) :
    k ∈ (objAssign key value obj).map Prod.fst ↔ k ∈ obj.map Prod.fst ∨ k = key := by
  rw [objAssign_fst]
  by_cases h : obj.any (fun p => p.1 = key)
  · rw [if_pos h]
    constructor
    · exact Or.inl
    · rintro (hk | rfl)
      · exact hk
      · simp only [List.any_eq_true, decide_eq_true_eq] at h
        obtain ⟨q, hq, hqk⟩ := h
        exact List.mem_map.mpr ⟨q, hq, hqk⟩
  · rw [if_neg h, List.mem_append, List.mem_singleton]

/-- Keys of the `fn.signatures` metadata: exactly the canonical
stringifications of the non-conversion defs. -/
theorem buildSigMap_keys {V : Type} (defs : List (Def V)) (k : Str) :
    k ∈ (buildSigMap defs).map Prod.fst ↔
      ∃ d ∈ defs, d.conversion = false ∧ stringifyParams d.signature = k := by
  unfold buildSigMap
  suffices h : ∀ (acc : List (Str × (List V → V))),
      (k ∈ (defs.foldl (fun acc d =>
        if d.conversion then acc
        else objAssign (stringifyParams d.signature) d.fn acc) acc).map Prod.fst ↔
      k ∈ acc.map Prod.fst ∨
        ∃ d ∈ defs, d.conversion = false ∧ stringifyParams d.signature = k) by
    rw [h []]
    simp
  induction defs with
  | nil =>
      intro acc
      constructor
      · intro hk
        exact Or.inl hk
      · rintro (hk | ⟨d, hd, -⟩)
        · exact hk
        · simp at hd
  | cons d rest ih =>
      intro acc
      show (k ∈ (rest.foldl _ (if d.conversion then acc
        else objAssign (stringifyParams d.signature) d.fn acc)).map Prod.fst ↔ _)
      by_cases hconv : d.conversion
      · rw [if_pos hconv]
        rw [ih acc]
        constructor
        · rintro (hk | ⟨d', hd', w⟩)
          · exact Or.inl hk
          · exact Or.inr ⟨d', List.mem_cons_of_mem _ hd', w⟩
        · rintro (hk | ⟨d', hd', hc', hs'⟩)
          · exact Or.inl hk
          · rcases List.mem_cons.mp hd' with hd' | hd'
            · subst hd'
              rw [hconv] at hc'
              cases hc'
            · exact Or.inr ⟨d', hd', hc', hs'⟩
      · rw [if_neg hconv]
        rw [ih (objAssign (stringifyParams d.signature) d.fn acc)]
        rw [objAssign_keys]
        constructor
        · rintro ((hk | hk) | ⟨d', hd', w⟩)
          · exact Or.inl hk
          · exact Or.inr ⟨d, List.mem_cons_self _ _,
              Bool.eq_false_iff.mpr hconv, hk.symm⟩
          · exact Or.inr ⟨d', List.mem_cons_of_mem _ hd', w⟩
        · rintro (hk | ⟨d', hd', hc', hs'⟩)
          · exact Or.inl (Or.inl hk)
          · rcases List.mem_cons.mp hd' with hd' | hd'
            · subst hd'
              exact Or.inl (Or.inr hs'.symm)
            · exact Or.inr ⟨d', hd', hc', hs'⟩

/-- Key characterization of the public `signatures` map of a compiled
callable (shared by the claims about metadata keys and `find`). -/
theorem sigMap_keys_spec {V : Type} [JsValues V] (ctx : Ctx V) (name : Str)
    (signatures : List (Str × (List V → V))) (c : Compiled V)
    (hc : createTypedFunction ctx name signatures = .ok c) :
    ∀ k : Str, k ∈ c.sigMap.map Prod.fst ↔
      ∃ p ∈ signatures, ∃ parsed ps, parseParams p.1 = .ok parsed ∧
        filterIgnoredTypes ctx parsed = some ps ∧ stringifyParams ps = k := by
  intro k
  obtain ⟨parsedDefs, convDefs, fast, hbd, hcv, hbf, hshape⟩ := createTypedFunction_inv hc
  rw [hshape]
  show k ∈ (buildSigMap _).map Prod.fst ↔ _
  rw [buildSigMap_keys]
  obtain ⟨hall, hmem⟩ := buildDefs_mem ctx signatures parsedDefs hbd
  have hconv := buildConvDefs_conv ctx _ convDefs hcv
  constructor
  · rintro ⟨d, hd, hdc, hds⟩
    rcases List.mem_append.mp hd with hd | hd
    · rw [mem_sortWith] at hd
      obtain ⟨p, hp, parsed, hparse, hfil⟩ := (hmem d.signature).mp ⟨d, hd, rfl⟩
      exact ⟨p, hp, parsed, d.signature, hparse, hfil, hds⟩
    · rw [(hconv d hd).1] at hdc
      cases hdc
  · rintro ⟨p, hp, parsed, ps, hparse, hfil, hps⟩
    obtain ⟨d, hd, hds⟩ := (hmem ps).mpr ⟨p, hp, parsed, hparse, hfil⟩
    refine ⟨d, List.mem_append.mpr (Or.inl ((mem_sortWith _ _ _).mpr hd)),
      (hall d hd).1, ?_⟩
    rw [hds, hps]

/-- C6: the public `signatures` map of a successfully compiled callable
contains exactly the user-given signatures that survived parsing and
ignored-type filtering (conversion-expanded defs are excluded), each keyed by
the canonical stringification of its normalized form. -/
theorem c6_signatures_keys {V : Type} [JsValues V] (ctx : Ctx V) (name : Str)
    (signatures : List (Str × (List V → V))) (c : Compiled V)
    (hc : createTypedFunction ctx name signatures = .ok c) :
    ∀ k : Str, k ∈ c.sigMap.map Prod.fst ↔
      ∃ p ∈ signatures, ∃ parsed ps, parseParams p.1 = .ok parsed ∧
        filterIgnoredTypes ctx parsed = some ps ∧ stringifyParams ps = k :=
  sigMap_keys_spec ctx name signatures c hc

/-- The callable compiled from `{ "number,number": f, "number,string": g }`,
used to witness C6 and C9. -/
def c6c : Compiled JSValue :=
  (createTypedFunction jsCtx (str "f")
    [(str "number, number", oneFn), (str "number, string", twoFn)]).toOption.getD
    (emptyCompiled (str "f"))

/-- Witness for C6 at a concrete input: the canonical key `"number,string"`
is a key of the compiled `signatures` map because the input entry
`"number, string"` survives parsing and filtering and stringifies to it. -/
theorem c6_witness : (str "number,string") ∈ c6c.sigMap.map Prod.fst :=
  (c6_signatures_keys jsCtx (str "f")
      [(str "number, number", oneFn), (str "number, string", twoFn)] c6c rfl
      (str "number,string")).mpr
    ⟨(str "number, string", twoFn), by simp,
      ⟨[[str "number"], [str "string"]], false⟩, ⟨[[str "number"], [str "string"]], false⟩,
      rfl, rfl, rfl⟩

/-! ## Claim C9: `find` round-trips on canonical keys -/

/-- Every character of every piece of `splitOnP` comes from the original list
and fails the splitting predicate. -/
theorem splitOnP_piece_prop {p : Char → Bool} :
    ∀ (xs : Str) (l : Str), l ∈ xs.splitOnP p → ∀ a ∈ l, a ∈ xs ∧ p a = false := by
  intro xs
  induction xs with
  | nil =>
      intro l hl a ha
      rw [List.splitOnP_nil] at hl
      rw [List.mem_singleton] at hl
      subst hl
      simp at ha
  | cons x rest ih =>
      intro l hl a ha
      rw [List.splitOnP_cons] at hl
      by_cases hx : p x
      · rw [if_pos hx] at hl
        rcases List.mem_cons.mp hl with hl | hl
        · subst hl
          simp at ha
        · obtain ⟨hmem, hp⟩ := ih l hl a ha
          exact ⟨List.mem_cons_of_mem x hmem, hp⟩
      · rw [if_neg hx] at hl
        cases hrec : rest.splitOnP p with
        | nil => exact absurd hrec (List.splitOnP_ne_nil p rest)
        | cons hd tl =>
            rw [hrec] at hl
            simp only [List.modifyHead] at hl
            rcases List.mem_cons.mp hl with hl | hl
            · subst hl
              rcases List.mem_cons.mp ha with ha | ha
              · subst ha
                exact ⟨List.mem_cons_self a rest, Bool.eq_false_iff.mpr hx⟩
              · obtain ⟨hmem, hp⟩ := ih hd (by rw [hrec]; exact List.mem_cons_self hd tl) a ha
                exact ⟨List.mem_cons_of_mem x hmem, hp⟩
            · obtain ⟨hmem, hp⟩ := ih l (by rw [hrec]; exact List.mem_cons_of_mem hd hl) a ha
              exact ⟨List.mem_cons_of_mem x hmem, hp⟩

/-- Pieces of `splitOn` never contain the separator, and their characters come
from the original string. -/
theorem mem_splitOn_prop {sep : Char} {xs l : Str} (hl : l ∈ xs.splitOn sep) :
    ∀ a ∈ l, a ∈ xs ∧ a ≠ sep := by
  intro a ha
  obtain ⟨hmem, hp⟩ := splitOnP_piece_prop xs l hl a ha
  refine ⟨hmem, ?_⟩
  intro heq
  subst heq
  simp at hp

/-- `intercalate` over a two-or-more-element list starts with the first piece
followed by the separator. -/
theorem intercalate_cons_cons {sep x y : Str} (tl : List Str) :
    List.intercalate sep (x :: y :: tl) = x ++ sep ++ List.intercalate sep (y :: tl) := by
  simp [List.intercalate, List.intersperse_cons_cons]

/-- `intercalate` of a single piece is that piece. -/
theorem intercalate_singleton {sep x : Str} : List.intercalate sep [x] = x := by
  simp [List.intercalate]

/-- Characters of an `intercalate` are separator characters or characters of
the pieces. -/
theorem mem_intercalate {c a : Char} :
    ∀ (ls : List Str), a ∈ List.intercalate [c] ls → a = c ∨ ∃ l ∈ ls, a ∈ l := by
  intro ls
  induction ls with
  | nil =>
      intro h
      simp [List.intercalate] at h
  | cons x rest ih =>
      intro h
      cases rest with
      | nil =>
          rw [intercalate_singleton] at h
          exact Or.inr ⟨x, List.mem_singleton_self x, h⟩
      | cons y tl =>
          rw [intercalate_cons_cons] at h
          rcases List.mem_append.mp h with h | h
          · rcases List.mem_append.mp h with h | h
            · exact Or.inr ⟨x, List.mem_cons_self _ _, h⟩
            · rw [List.mem_singleton] at h
              exact Or.inl h
          · rcases ih h with h | ⟨l, hl, hal⟩
            · exact Or.inl h
            · exact Or.inr ⟨l, List.mem_cons_of_mem x hl, hal⟩

/-- The head of an `intercalate` over a nonempty first piece. -/
theorem head?_intercalate {c : Char} (x : Str) (rest : List Str) (hx : x ≠ []) :
    (List.intercalate [c] (x :: rest)).head? = x.head? := by
  cases rest with
  | nil => rw [intercalate_singleton]
  | cons y tl =>
      rw [intercalate_cons_cons, List.append_assoc]
      cases x with
      | nil => exact absurd rfl hx
      | cons a r => rfl

/-- The last element of an `intercalate` over nonempty pieces is the last
element of the last piece. -/
theorem getLast?_intercalate {c : Char} :
    ∀ (ls : List Str), ls ≠ [] → (∀ l ∈ ls, l ≠ []) →
      (List.intercalate [c] ls).getLast? = (ls.getLastD []).getLast? := by
  intro ls
  induction ls with
  | nil => intro h _; exact absurd rfl h
  | cons x rest ih =>
      intro _ hne
      cases rest with
      | nil =>
          rw [intercalate_singleton]
          rfl
      | cons y tl =>
          rw [intercalate_cons_cons]
          have hrec := ih (List.cons_ne_nil y tl)
            (fun l hl => hne l (List.mem_cons_of_mem x hl))
          have hnonempty : List.intercalate [c] (y :: tl) ≠ [] := by
            intro hcontra
            have hy := hne y (List.mem_cons_of_mem x (List.mem_cons_self y tl))
            have : (List.intercalate [c] (y :: tl)).head? = y.head? :=
              head?_intercalate y tl hy
            rw [hcontra] at this
            cases y with
            | nil => exact absurd rfl hy
            | cons b s => simp at this
          rw [List.getLast?_append_of_ne_nil _ hnonempty]
          rw [hrec]
          rfl

/-- A well-formed type name as produced by the parser: nonempty, fixed under
`jsTrim`, and comma-free. -/
def WfName (t : Str) : Prop := t ≠ [] ∧ jsTrim t = t ∧ ',' ∉ t

/-- Every type name produced by `parseParam` from a comma-free token is
well-formed. -/
theorem parseParam_wf {tok : Str} (hc : ',' ∉ tok) : ∀ t ∈ parseParam tok, WfName t := by
  intro t ht
  unfold parseParam at ht
  rw [List.mem_filter] at ht
  obtain ⟨hmem, hne⟩ := ht
  obtain ⟨piece, hpiece, hp⟩ := List.mem_map.mp hmem
  refine ⟨by simpa using hne, by rw [← hp]; exact jsTrim_idem piece, ?_⟩
  intro hct
  rw [← hp] at hct
  have hcp : (',' : Char) ∈ piece := jsTrim_sub hct
  exact absurd ((mem_splitOn_prop hpiece ',' hcp).1) hc

/-- Every param produced by the token loop is `parseParam` of one of the
tokens, of a token with its rest prefix sliced off, or of the default
`"any"`. -/
theorem parseParamsGo_mem (total : Nat) :
    ∀ (toks : List Str) (i : Nat) (res : List Param × Bool),
      parseParamsGo total toks i = .ok res →
      ∀ prm ∈ res.1, ∃ u, prm = parseParam u ∧
        (u = str "any" ∨ ∃ tok ∈ toks, u = tok ∨ u = tok.drop 3) := by
  intro toks
  induction toks with
  | nil =>
      intro i res h prm hprm
      cases h
      simp at hprm
  | cons tok rest ih =>
      intro i res h prm hprm
      unfold parseParamsGo at h
      by_cases hpre : (str "...").isPrefixOf tok
      · rw [if_pos hpre] at h
        by_cases hlast : i = total - 1
        · rw [if_pos hlast] at h
          obtain ⟨x, hx, h⟩ := bind_ok_inv h
          obtain ⟨ps, r⟩ := x
          injection h with h
          subst h
          rcases List.mem_cons.mp hprm with hprm | hprm
          · by_cases hlen : 3 < tok.length
            · rw [if_pos hlen] at hprm
              exact ⟨tok.drop 3, hprm, Or.inr ⟨tok, List.mem_cons_self _ _, Or.inr rfl⟩⟩
            · rw [if_neg hlen] at hprm
              exact ⟨str "any", hprm, Or.inl rfl⟩
          · obtain ⟨u, hu, hsrc⟩ := ih (i + 1) (ps, r) hx prm hprm
            rcases hsrc with hsrc | ⟨tok', htok', hcase⟩
            · exact ⟨u, hu, Or.inl hsrc⟩
            · exact ⟨u, hu, Or.inr ⟨tok', List.mem_cons_of_mem _ htok', hcase⟩⟩
        · rw [if_neg hlast] at h
          cases h
      · rw [if_neg hpre] at h
        obtain ⟨x, hx, h⟩ := bind_ok_inv h
        obtain ⟨ps, r⟩ := x
        injection h with h
        subst h
        rcases List.mem_cons.mp hprm with hprm | hprm
        · exact ⟨tok, hprm, Or.inr ⟨tok, List.mem_cons_self _ _, Or.inl rfl⟩⟩
        · obtain ⟨u, hu, hsrc⟩ := ih (i + 1) (ps, r) hx prm hprm
          rcases hsrc with hsrc | ⟨tok', htok', hcase⟩
          · exact ⟨u, hu, Or.inl hsrc⟩
          · exact ⟨u, hu, Or.inr ⟨tok', List.mem_cons_of_mem _ htok', hcase⟩⟩

/-- Every type name of a parsed signature is well-formed. -/
theorem parseParams_wf {s : Str} {sig : Sig} (h : parseParams s = .ok sig) :
    ∀ prm ∈ sig.params, ∀ t ∈ prm, WfName t := by
  unfold parseParams at h
  by_cases htrim : jsTrim s = []
  · rw [if_pos htrim] at h
    injection h with h
    subst h
    intro prm hprm
    simp at hprm
  · rw [if_neg htrim] at h
    obtain ⟨x, hx, h⟩ := bind_ok_inv h
    obtain ⟨params, r⟩ := x
    injection h with h
    subst h
    intro prm hprm t ht
    obtain ⟨u, hu, hsrc⟩ := parseParamsGo_mem _ _ _ _ hx prm hprm
    subst hu
    have hcfree : ',' ∉ u := by
      rcases hsrc with hsrc | ⟨tok, htok, hcase⟩
      · subst hsrc
        decide
      · obtain ⟨piece, hpiece, hp⟩ := List.mem_map.mp htok
        have hcp : ',' ∉ tok := by
          intro hct
          rw [← hp] at hct
          exact (mem_splitOn_prop hpiece ',' (jsTrim_sub hct)).2 rfl
        rcases hcase with hcase | hcase
        · rw [hcase]
          exact hcp
        · rw [hcase]
          intro hct
          exact hcp (List.mem_of_mem_drop hct)
    exact parseParam_wf hcfree t ht

/-- The params surviving ignored-type filtering are nonempty sublists of the
original params. -/
theorem filterParams_mem {ignore : List Str} :
    ∀ {params qs : List Param}, filterParams ignore params = some qs →
      ∀ q ∈ qs, q ≠ [] ∧ ∃ p ∈ params, ∀ t ∈ q, t ∈ p := by
  intro params
  induction params with
  | nil =>
      intro qs h q hq
      cases h
      simp at hq
  | cons p rest ih =>
      intro qs h q hq
      unfold filterParams at h
      split at h
      · cases h
      · rename_i hne
        cases hrec : filterParams ignore rest with
        | none => rw [hrec] at h; cases h
        | some ps' =>
            rw [hrec] at h
            injection h with h
            subst h
            rcases List.mem_cons.mp hq with hq | hq
            · subst hq
              refine ⟨hne, p, List.mem_cons_self _ _, ?_⟩
              intro t htq
              exact (List.mem_filter.mp htq).1
            · obtain ⟨hne', p', hp', hsub⟩ := ih hrec q hq
              exact ⟨hne', p', List.mem_cons_of_mem _ hp', hsub⟩

/-- Every param of a signature that survived ignored-type filtering is
nonempty and made of well-formed names, provided the parsed signature's names
were well-formed. -/
theorem filterIgnoredTypes_wf {V : Type} {ctx : Ctx V} {parsed ps : Sig}
    (hfil : filterIgnoredTypes ctx parsed = some ps)
    (hwf : ∀ prm ∈ parsed.params, ∀ t ∈ prm, WfName t) :
    ∀ q ∈ ps.params, q ≠ [] ∧ ∀ t ∈ q, WfName t := by
  unfold filterIgnoredTypes at hfil
  cases hfp : filterParams ctx.ignore parsed.params with
  | none => rw [hfp] at hfil; cases hfil
  | some qs =>
      rw [hfp] at hfil
      injection hfil with hfil
      subst hfil
      intro q hq
      obtain ⟨hne, p, hp, hsub⟩ := filterParams_mem hfp q hq
      exact ⟨hne, fun t ht => hwf p hp t (hsub t ht)⟩

/-- A trim-fixed nonempty string neither starts nor ends with whitespace. -/
theorem wf_head_not_ws {t : Str} (ht : jsTrim t = t) :
    ∀ a ∈ t.head?, isWsChar a = false := by
  rw [← ht]
  exact jsTrim_head?

theorem wf_getLast_not_ws {t : Str} (ht : jsTrim t = t) :
    ∀ a ∈ t.getLast?, isWsChar a = false := by
  rw [← ht]
  exact jsTrim_getLast?

/-- Each comma-separated segment of a canonical signature key is nonempty,
trim-fixed and comma-free, provided the signature's params are nonempty and
made of well-formed names. -/
theorem stringify_segment_wf (sig : Sig)
    (hparams : ∀ prm ∈ sig.params, prm ≠ [] ∧ ∀ t ∈ prm, WfName t) :
    ∀ seg ∈ sig.params.mapIdx (fun index param =>
      (if sig.restParam && index = sig.params.length - 1 then str "..." else []) ++
        List.intercalate ['|'] param),
      seg ≠ [] ∧ jsTrim seg = seg ∧ ',' ∉ seg := by
  intro seg hseg
  obtain ⟨i, hi, hget⟩ := List.mem_iff_getElem.mp hseg
  rw [List.getElem_mapIdx] at hget
  have hi' : i < sig.params.length := by
    have := hi
    rw [List.length_mapIdx] at this
    exact this
  obtain ⟨hne, hwf⟩ := hparams sig.params[i] (List.getElem_mem hi')
  obtain ⟨t0, prest, hp⟩ := List.exists_cons_of_ne_nil hne
  have ht0 := hwf t0 (by rw [hp]; exact List.mem_cons_self _ _)
  -- the `|`-joined types are nonempty
  have hjoin_head : (List.intercalate ['|'] sig.params[i]).head? = t0.head? := by
    rw [hp]
    exact head?_intercalate t0 prest ht0.1
  have hjoin_ne : List.intercalate ['|'] sig.params[i] ≠ [] := by
    intro hcontra
    rw [hcontra] at hjoin_head
    obtain ⟨a, r, ht0c⟩ := List.exists_cons_of_ne_nil ht0.1
    rw [ht0c] at hjoin_head
    simp at hjoin_head
  have hlastmem : sig.params[i].getLastD [] ∈ sig.params[i] := by
    rw [hp, List.getLastD_eq_getLast?, List.getLast?_eq_getLast _ (List.cons_ne_nil t0 prest)]
    exact List.getLast_mem _
  have hlastwf := hwf _ hlastmem
  have hjoin_last : (List.intercalate ['|'] sig.params[i]).getLast? =
      (sig.params[i].getLastD []).getLast? := by
    rw [hp]
    exact getLast?_intercalate _ (List.cons_ne_nil t0 prest)
      (fun l hl => (hwf l (by rw [hp]; exact hl)).1)
  have hjoin_comma : ',' ∉ List.intercalate ['|'] sig.params[i] := by
    intro hc
    rcases mem_intercalate _ hc with hc | ⟨l, hl, hcl⟩
    · cases hc
    · exact (hwf l hl).2.2 hcl
  by_cases hrest : (sig.restParam && decide (i = sig.params.length - 1)) = true
  · rw [← hget]
    rw [if_pos hrest]
    refine ⟨by simp [str], ?_, ?_⟩
    · apply jsTrim_eq_self_of
      · have hhead : ((str "...") ++ List.intercalate ['|'] sig.params[i]).head? =
            some '.' := rfl
        intro a ha
        rw [hhead] at ha
        simp at ha
        rw [← ha]
        decide
      · intro a ha
        rw [List.getLast?_append_of_ne_nil _ hjoin_ne, hjoin_last] at ha
        exact wf_getLast_not_ws hlastwf.2.1 a ha
    · intro hc
      rcases List.mem_append.mp hc with hc | hc
      · revert hc
        decide
      · exact hjoin_comma hc
  · rw [← hget]
    rw [if_neg hrest, List.nil_append]
    refine ⟨hjoin_ne, ?_, hjoin_comma⟩
    apply jsTrim_eq_self_of
    · intro a ha
      rw [hjoin_head] at ha
      exact wf_head_not_ws ht0.2.1 a ha
    · intro a ha
      rw [hjoin_last] at ha
      exact wf_getLast_not_ws hlastwf.2.1 a ha

/-- The canonical stringification of a well-formed signature is a fixed point
of the `find` normalization (split on commas, trim, re-join). -/
theorem normalizeKey_canonical (sig : Sig)
    (hparams : ∀ prm ∈ sig.params, prm ≠ [] ∧ ∀ t ∈ prm, WfName t) :
    List.intercalate [','] (((stringifyParams sig).splitOn ',').map jsTrim) =
      stringifyParams sig := by
  have hsegwf := stringify_segment_wf sig hparams
  unfold stringifyParams
  by_cases hemp : sig.params = []
  · rw [hemp]
    rfl
  · have hsegs_ne : sig.params.mapIdx (fun index param =>
        (if sig.restParam && index = sig.params.length - 1 then str "..." else []) ++
          List.intercalate ['|'] param) ≠ [] := by
      intro hcontra
      have := congrArg List.length hcontra
      rw [List.length_mapIdx] at this
      exact hemp (List.length_eq_zero.mp this)
    rw [List.splitOn_intercalate _ ',' (fun l hl => (hsegwf l hl).2.2) hsegs_ne]
    have : (sig.params.mapIdx (fun index param =>
        (if sig.restParam && index = sig.params.length - 1 then str "..." else []) ++
          List.intercalate ['|'] param)).map jsTrim =
        sig.params.mapIdx (fun index param =>
          (if sig.restParam && index = sig.params.length - 1 then str "..." else []) ++
            List.intercalate ['|'] param) := by
      rw [List.map_congr_left (fun l hl => (hsegwf l hl).2.1)]
      exact List.map_id _
    rw [this]

/-- C9: `find` with a string round-trips on every key of a compiled
callable's `signatures` map: the split-trim-join normalization fixes the
canonical key, and the exact lookup returns precisely the stored
implementation. -/
theorem c9_find_roundtrip {V : Type} [JsValues V] (ctx : Ctx V) (name : Str)
    (signatures : List (Str × (List V → V))) (c : Compiled V)
    (hc : createTypedFunction ctx name signatures = .ok c)
    (k : Str) (f : List V → V) (hk : objGet c.sigMap k = some f) :
    find c (.inl k) = .ok f := by
  have hkey : k ∈ c.sigMap.map Prod.fst := by
    unfold objGet at hk
    cases hf : c.sigMap.find? (fun p => p.1 = k) with
    | none =>
        rw [hf] at hk
        cases hk
    | some q =>
        have hq1 : q.1 = k := by simpa using List.find?_some hf
        exact List.mem_map.mpr ⟨q, List.mem_of_find?_eq_some hf, hq1⟩
  obtain ⟨p, hp, parsed, ps, hparse, hfil, hps⟩ :=
    (sigMap_keys_spec ctx name signatures c hc k).mp hkey
  have hwf := filterIgnoredTypes_wf hfil (parseParams_wf hparse)
  have hnorm : List.intercalate [','] ((k.splitOn ',').map jsTrim) = k := by
    rw [← hps]
    exact normalizeKey_canonical ps hwf
  show (match objGet c.sigMap (List.intercalate [','] ((k.splitOn ',').map jsTrim)) with
    | some fn => Except.ok fn
    | none => Except.error FindError.notFound) = .ok f
  rw [hnorm, hk]

/-- Witness for C9 at a concrete input: looking up the canonical key
`"number,string"` of the compiled two-signature callable returns exactly the
stored implementation. -/
theorem c9_witness : find c6c (.inl (str "number,string")) = .ok twoFn :=
  c9_find_roundtrip jsCtx (str "f")
    [(str "number, number", oneFn), (str "number, string", twoFn)] c6c rfl
    (str "number,string") twoFn rfl

/-! ## Claims C2 and C3: the assembled dispatcher versus the linear scan -/

/-- Inversion of a successful `buildFast`: six entries, one per slot. -/
theorem buildFast_inv {V : Type} {ctx : Ctx V} {defs : List (Def V)}
    {fast : List (FastEntry V)} (h : buildFast ctx defs = .ok fast) :
    ∃ e0 e1 e2 e3 e4 e5, fast = [e0, e1, e2, e3, e4, e5] ∧
      buildFastEntry ctx defs 0 = .ok e0 ∧ buildFastEntry ctx defs 1 = .ok e1 ∧
      buildFastEntry ctx defs 2 = .ok e2 ∧ buildFastEntry ctx defs 3 = .ok e3 ∧
      buildFastEntry ctx defs 4 = .ok e4 ∧ buildFastEntry ctx defs 5 = .ok e5 := by
  unfold buildFast at h
  obtain ⟨e0, h0, h⟩ := bind_ok_inv h
  obtain ⟨e1, h1, h⟩ := bind_ok_inv h
  obtain ⟨e2, h2, h⟩ := bind_ok_inv h
  obtain ⟨e3, h3, h⟩ := bind_ok_inv h
  obtain ⟨e4, h4, h⟩ := bind_ok_inv h
  obtain ⟨e5, h5, h⟩ := bind_ok_inv h
  injection h with h
  exact ⟨e0, e1, e2, e3, e4, e5, h.symm, h0, h1, h2, h3, h4, h5⟩

/-- A qualifying slot's fast entry holds the def's arity and its two compiled
param tests. -/
theorem buildFastEntry_ok_spec {V : Type} {ctx : Ctx V} {defs : List (Def V)} {k : Nat}
    {e : FastEntry V} (h : buildFastEntry ctx defs k = .ok e) (hok : okDef defs k = true) :
    ∃ d, defs.get? k = some d ∧ e.len = (d.signature.params.length : Int) ∧
      compileParam ctx (d.signature.params.get? 0) = .ok e.test0 ∧
      compileParam ctx (d.signature.params.get? 1) = .ok e.test1 := by
  unfold okDef at hok
  unfold buildFastEntry at h
  cases hget : defs.get? k with
  | none =>
      rw [hget] at hok
      cases hok
  | some d =>
      rw [hget] at hok h
      dsimp only at h hok
      rw [if_pos hok] at h
      obtain ⟨t0, h0, h⟩ := bind_ok_inv h
      obtain ⟨t1, h1, h⟩ := bind_ok_inv h
      injection h with h
      subst h
      exact ⟨d, rfl, rfl, h0, h1⟩

/-- A non-qualifying slot's fast entry has `len = -1`. -/
theorem buildFastEntry_notOk_spec {V : Type} {ctx : Ctx V} {defs : List (Def V)} {k : Nat}
    {e : FastEntry V} (h : buildFastEntry ctx defs k = .ok e) (hok : okDef defs k = false) :
    e.len = -1 := by
  unfold okDef at hok
  unfold buildFastEntry at h
  cases hget : defs.get? k with
  | none =>
      rw [hget] at h
      injection h with h
      rw [← h]
  | some d =>
      rw [hget] at hok h
      dsimp only at h hok
      rw [if_neg (by rw [hok]; exact Bool.false_ne_true)] at h
      injection h with h
      rw [← h]

/-- A fast entry whose `len` is `-1` never fires. -/
theorem fastCond_neg {V : Type} [JsValues V] {e : FastEntry V} (h : e.len = -1)
    (args : List V) : fastCond e args = false := by
  unfold fastCond
  rw [h]
  have : ((args.length : Int) == (-1 : Int)) = false := by
    rw [beq_eq_false_iff_ne]
    omega
  rw [this]
  rfl

/-- Comparing an argument count to a nonnegative declared arity with `==` on
`Int` is the equality test on `Nat`. -/
theorem argLen_beq (m n : Nat) : ((m : Int) == (n : Int)) = decide (m = n) := by
  by_cases h : m = n
  · subst h
    simp
  · rw [decide_eq_false h, beq_eq_false_iff_ne]
    intro hcontra
    exact h (Int.natCast_inj.mp hcontra)

/-- For a fast-path-qualifying def whose test was compiled from its signature,
the fast clause is exactly the def's own whole-argument predicate. -/
theorem fastCond_eq_test {V : Type} [JsValues V] (ctx : Ctx V) (d : Def V) (e : FastEntry V)
    (hq : (decide (d.signature.params.length ≤ 2) && !d.signature.restParam) = true)
    (hwf : compileParams ctx d.signature = .ok d.test)
    (hlen : e.len = (d.signature.params.length : Int))
    (h0 : compileParam ctx (d.signature.params.get? 0) = .ok e.test0)
    (h1 : compileParam ctx (d.signature.params.get? 1) = .ok e.test1) :
    ∀ args : List V, fastCond e args = d.test args := by
  intro args
  rw [Bool.and_eq_true] at hq
  obtain ⟨hle, hrest⟩ := hq
  rw [Bool.not_eq_true'] at hrest
  rw [decide_eq_true_eq] at hle
  unfold compileParams at hwf
  rw [hrest] at hwf
  rw [if_neg (by simp)] at hwf
  unfold fastCond
  rw [hlen, argLen_beq]
  cases hps : d.signature.params with
  | nil =>
      rw [hps] at hwf h0 h1
      dsimp only at hwf h0 h1
      injection hwf with hwf
      injection h0 with h0
      injection h1 with h1
      rw [← hwf, ← h0, ← h1]
      simp [ok]
  | cons p0 ps' =>
      cases hps' : ps' with
      | nil =>
          rw [hps, hps'] at hwf h0 h1
          dsimp only at hwf h0 h1
          simp only [List.get?] at h0 h1
          obtain ⟨t0, ht0, hwf⟩ := bind_ok_inv hwf
          injection hwf with hwf
          rw [ht0] at h0
          injection h0 with h0
          injection h1 with h1
          rw [← hwf, ← h0, ← h1]
          simp only [ok, Bool.and_true]
          rw [Bool.and_comm]
          simp
      | cons p1 ps'' =>
          cases hps'' : ps'' with
          | nil =>
              rw [hps, hps', hps''] at hwf h0 h1
              dsimp only at hwf h0 h1
              simp only [List.get?] at h0 h1
              obtain ⟨t0, ht0, hwf⟩ := bind_ok_inv hwf
              obtain ⟨t1, ht1, hwf⟩ := bind_ok_inv hwf
              injection hwf with hwf
              rw [ht0] at h0
              rw [ht1] at h1
              injection h0 with h0
              injection h1 with h1
              rw [← hwf, ← h0, ← h1]
              show (decide (args.length = 2) && t0 (aget args 0) && t1 (aget args 1)) =
                (t0 (aget args 0) && t1 (aget args 1) && decide (args.length = 2))
              cases decide (args.length = 2) <;> cases t0 (aget args 0) <;>
                cases t1 (aget args 1) <;> rfl
          | cons p2 ps3 =>
              exfalso
              rw [hps, hps', hps''] at hle
              simp at hle

/-- If no fast clause fires, the fast path yields nothing. -/
theorem selectFastGo_none {V : Type} [JsValues V] (c : Compiled V) (args : List V) :
    ∀ (fs : List (FastEntry V)) (k : Nat),
      (∀ e ∈ fs, fastCond e args = false) → selectFastGo c args fs k = none := by
  intro fs
  induction fs with
  | nil => intro k _; rfl
  | cons e rest ih =>
      intro k hall
      show (if fastCond e args then _ else _) = none
      rw [hall e (List.mem_cons_self e rest)]
      show selectFastGo c args rest (k + 1) = none
      exact ih (k + 1) (fun e' he' => hall e' (List.mem_cons_of_mem e he'))

/-- The first firing fast clause selects the def at its absolute slot. -/
theorem selectFastGo_first {V : Type} [JsValues V] (c : Compiled V) (args : List V) :
    ∀ (fs : List (FastEntry V)) (k i : Nat), i < fs.length →
      (∀ j, j < i → fastCond (fs.getD j defaultFastEntry) args = false) →
      fastCond (fs.getD i defaultFastEntry) args = true →
      selectFastGo c args fs k = c.defs.get? (k + i) := by
  intro fs
  induction fs with
  | nil =>
      intro k i hi
      simp at hi
  | cons e rest ih =>
      intro k i hi hprev hcond
      cases i with
      | zero =>
          show (if fastCond e args then _ else _) = _
          rw [show (e :: rest).getD 0 defaultFastEntry = e from rfl] at hcond
          rw [hcond]
          rw [Nat.add_zero]
          rfl
      | succ i' =>
          show (if fastCond e args then _ else _) = _
          have h0 : fastCond e args = false := hprev 0 (Nat.succ_pos i')
          rw [h0]
          show selectFastGo c args rest (k + 1) = _
          have := ih (k + 1) i' (by simpa using hi)
            (fun j hj => hprev (j + 1) (by omega)) hcond
          rw [this]
          congr 1
          omega

/-- `find?` skips a prefix on which the predicate fails. -/
theorem find?_pre_false {α : Type} (p : α → Bool) :
    ∀ (n : Nat) (l : List α),
      (∀ k, k < n → ∀ y, l.get? k = some y → p y = false) →
      l.find? p = (l.drop n).find? p := by
  intro n
  induction n with
  | zero =>
      intro l _
      rw [List.drop_zero]
  | succ n' ih =>
      intro l hpre
      cases l with
      | nil => rfl
      | cons x rest =>
          have hx : p x = false := hpre 0 (Nat.succ_pos n') x rfl
          rw [List.find?_cons_of_neg _ (by rw [hx]; exact Bool.false_ne_true)]
          show rest.find? p = (rest.drop n').find? p
          exact ih rest (fun k hk y hy => hpre (k + 1) (by omega) y hy)

/-- `find?` returns the element at the first index where the predicate
holds. -/
theorem find?_at {α : Type} (p : α → Bool) :
    ∀ (l : List α) (i : Nat) (x : α), l.get? i = some x → p x = true →
      (∀ j, j < i → ∀ y, l.get? j = some y → p y = false) →
      l.find? p = some x := by
  intro l
  induction l with
  | nil =>
      intro i x hx
      simp at hx
  | cons z rest ih =>
      intro i x hx hp hpre
      cases i with
      | zero =>
          injection hx with hx
          subst hx
          rw [List.find?_cons_of_pos _ hp]
      | succ i' =>
          have hz : p z = false := hpre 0 (Nat.succ_pos i') z rfl
          rw [List.find?_cons_of_neg _ (by rw [hz]; exact Bool.false_ne_true)]
          exact ih i' x hx hp (fun j hj y hy => hpre (j + 1) (by omega) y hy)

/-- `allOk` means each of the six fast slots qualifies. -/
theorem jsAllOk_spec {V : Type} {defs : List (Def V)} (h : jsAllOk defs = true) :
    ∀ k, k < 6 → okDef defs k = true := by
  unfold jsAllOk at h
  rw [Bool.and_eq_true] at h
  obtain ⟨h, h5⟩ := h
  rw [Bool.and_eq_true] at h
  obtain ⟨h, h4⟩ := h
  rw [Bool.and_eq_true] at h
  obtain ⟨h, h3⟩ := h
  rw [Bool.and_eq_true] at h
  obtain ⟨h, h2⟩ := h
  rw [Bool.and_eq_true] at h
  obtain ⟨h0, h1⟩ := h
  intro k hk
  interval_cases k <;> assumption

/-- Core dispatch equivalence: when each fast slot's clause coincides with the
corresponding def's own predicate (qualifying slots) or never fires
(non-qualifying slots), and the fast-qualifying defs form a prefix of the
first six, the staged dispatcher selects exactly the def a single linear scan
selects. -/
theorem select_eq_find_general {V : Type} [JsValues V] (c : Compiled V) (args : List V)
    (hlen : c.fast.length = 6)
    (hok : ∀ k, k < 6 → okDef c.defs k = true →
      ∃ d, c.defs.get? k = some d ∧
        ∀ a, fastCond (c.fast.getD k defaultFastEntry) a = d.test a)
    (hnot : ∀ k, k < 6 → okDef c.defs k = false →
      ∀ a, fastCond (c.fast.getD k defaultFastEntry) a = false)
    (hall : c.allOk = jsAllOk c.defs)
    (hpfx : ∀ j k : Nat, j < k → k < 6 → okDef c.defs k = true → okDef c.defs j = true) :
    typedSelect c args = c.defs.find? (fun d => d.test args) := by
  by_cases hex : ∃ i, i < 6 ∧ fastCond (c.fast.getD i defaultFastEntry) args = true
  · haveI hdp : DecidablePred (fun i => i < 6 ∧
        fastCond (c.fast.getD i defaultFastEntry) args = true) := fun i => inferInstance
    obtain ⟨hi6, hicond⟩ := Nat.find_spec hex
    have hminc : ∀ j, j < Nat.find hex →
        fastCond (c.fast.getD j defaultFastEntry) args = false := by
      intro j hj
      have hm := Nat.find_min hex hj
      cases hcase : fastCond (c.fast.getD j defaultFastEntry) args
      · rfl
      · exact absurd ⟨lt_trans hj hi6, hcase⟩ hm
    have hoki0 : okDef c.defs (Nat.find hex) = true := by
      cases hcase : okDef c.defs (Nat.find hex)
      · have := hnot (Nat.find hex) hi6 hcase args
        rw [this] at hicond
        cases hicond
      · rfl
    obtain ⟨d, hdget, hdcond⟩ := hok (Nat.find hex) hi6 hoki0
    have hsel : selectFast c args = some d := by
      unfold selectFast
      rw [selectFastGo_first c args c.fast 0 (Nat.find hex)
        (by rw [hlen]; exact hi6) hminc hicond]
      rw [Nat.zero_add, hdget]
    have hdtest : d.test args = true := by
      rw [← hdcond args]
      exact hicond
    have hfind : c.defs.find? (fun x => x.test args) = some d := by
      apply find?_at _ c.defs (Nat.find hex) d hdget hdtest
      intro j hj y hy
      have hokj : okDef c.defs j = true := hpfx j (Nat.find hex) hj hi6 hoki0
      obtain ⟨d', hd'get, hd'cond⟩ := hok j (lt_trans hj hi6) hokj
      rw [hy] at hd'get
      injection hd'get with hd'get
      subst hd'get
      show y.test args = false
      rw [← hd'cond args]
      exact hminc j hj
    unfold typedSelect
    rw [hsel, hfind]
  · have hexf : ∀ i, i < 6 → fastCond (c.fast.getD i defaultFastEntry) args = false := by
      intro i hi
      cases hcase : fastCond (c.fast.getD i defaultFastEntry) args
      · rfl
      · exact absurd ⟨i, hi, hcase⟩ hex
    have hnonefast : selectFast c args = none := by
      apply selectFastGo_none
      intro e he
      obtain ⟨n, hn⟩ := List.mem_iff_get.mp he
      have h6 : (n : Nat) < 6 := by
        rw [← hlen]
        exact n.isLt
      have hf := hexf n h6
      have hge : c.fast.getD (↑n) defaultFastEntry = c.fast.get n := by
        rw [getD_lt _ n.isLt defaultFastEntry, List.get_eq_getElem]
      rw [hge, hn] at hf
      exact hf
    unfold typedSelect selectFast at hnonefast ⊢
    rw [hnonefast]
    show (c.defs.drop (if c.allOk then 6 else 0)).find? (fun d => d.test args) =
      c.defs.find? (fun d => d.test args)
    by_cases hA : c.allOk = true
    · rw [if_pos hA]
      symm
      apply find?_pre_false
      intro k hk y hy
      have hj : jsAllOk c.defs = true := by
        rw [← hall]
        exact hA
      have hokk : okDef c.defs k = true := jsAllOk_spec hj k hk
      obtain ⟨d', hd'get, hd'cond⟩ := hok k hk hokk
      rw [hy] at hd'get
      injection hd'get with hd'get
      subst hd'get
      show y.test args = false
      rw [← hd'cond args]
      exact hexf k hk
    · rw [if_neg hA, List.drop_zero]

/-- A successfully compiled callable satisfies the fast-path slot
characterization: six precompiled entries, `allOk` is `jsAllOk` of its defs,
and each slot's clause coincides with the slot def's own predicate when the
slot qualifies and never fires when it does not. -/
theorem compiled_fast_spec {V : Type} [JsValues V] {ctx : Ctx V} {name : Str}
    {signatures : List (Str × (List V → V))} {c : Compiled V}
    (hc : createTypedFunction ctx name signatures = .ok c) :
    c.fast.length = 6 ∧
    c.allOk = jsAllOk c.defs ∧
    ∀ k, k < 6 →
      (okDef c.defs k = true →
        ∃ d, c.defs.get? k = some d ∧
          ∀ a, fastCond (c.fast.getD k defaultFastEntry) a = d.test a) ∧
      (okDef c.defs k = false →
        ∀ a, fastCond (c.fast.getD k defaultFastEntry) a = false) := by
  obtain ⟨pd, cd, fast, hbd, hcv, hbf, hshape⟩ := createTypedFunction_inv hc
  subst hshape
  obtain ⟨e0, e1, e2, e3, e4, e5, hfeq, h0, h1, h2, h3, h4, h5⟩ := buildFast_inv hbf
  subst hfeq
  have hwf : ∀ d ∈ (sortWith
      (fun a b => compareSignatures a.signature b.signature (createTypesIndexMap ctx.types))
      pd ++ cd), compileParams ctx d.signature = .ok d.test := by
    intro d hd
    rcases List.mem_append.mp hd with hmem | hmem
    · exact ((buildDefs_mem ctx signatures pd hbd).1 d
        ((mem_sortWith _ d pd).mp hmem)).2.1
    · exact (buildConvDefs_conv ctx _ cd hcv d hmem).2
  have key : ∀ (k : Nat) (e : FastEntry V),
      buildFastEntry ctx (sortWith
        (fun a b => compareSignatures a.signature b.signature (createTypesIndexMap ctx.types))
        pd ++ cd) k = .ok e →
      okDef (sortWith
        (fun a b => compareSignatures a.signature b.signature (createTypesIndexMap ctx.types))
        pd ++ cd) k = true →
      ∃ d, (sortWith
        (fun a b => compareSignatures a.signature b.signature (createTypesIndexMap ctx.types))
        pd ++ cd).get? k = some d ∧ ∀ a, fastCond e a = d.test a := by
    intro k e he hokk
    obtain ⟨d, hget, hlen', hp0, hp1⟩ := buildFastEntry_ok_spec he hokk
    have hq : (decide (d.signature.params.length ≤ 2) && !d.signature.restParam) = true := by
      unfold okDef at hokk
      rw [hget] at hokk
      exact hokk
    have hdmem := List.get?_mem hget
    exact ⟨d, hget, fastCond_eq_test ctx d e hq (hwf d hdmem) hlen' hp0 hp1⟩
  refine ⟨rfl, rfl, ?_⟩
  intro k hk
  constructor
  · intro hokk
    interval_cases k
    · exact key 0 e0 h0 hokk
    · exact key 1 e1 h1 hokk
    · exact key 2 e2 h2 hokk
    · exact key 3 e3 h3 hokk
    · exact key 4 e4 h4 hokk
    · exact key 5 e5 h5 hokk
  · intro hokk
    interval_cases k
    · exact fastCond_neg (buildFastEntry_notOk_spec h0 hokk)
    · exact fastCond_neg (buildFastEntry_notOk_spec h1 hokk)
    · exact fastCond_neg (buildFastEntry_notOk_spec h2 hokk)
    · exact fastCond_neg (buildFastEntry_notOk_spec h3 hokk)
    · exact fastCond_neg (buildFastEntry_notOk_spec h4 hokk)
    · exact fastCond_neg (buildFastEntry_notOk_spec h5 hokk)

/-- Dispatch/scan agreement for a compiled callable whose fast-qualifying defs
form a prefix of the first six: the staged dispatcher selects the same def as
a linear scan of the full def list. -/
theorem typedSelect_eq_find {V : Type} [JsValues V] {ctx : Ctx V} {name : Str}
    {signatures : List (Str × (List V → V))} {c : Compiled V}
    (hc : createTypedFunction ctx name signatures = .ok c)
    (hpfx : ∀ j k : Nat, j < k → k < 6 → okDef c.defs k = true → okDef c.defs j = true)
    (args : List V) :
    typedSelect c args = c.defs.find? (fun d => d.test args) := by
  obtain ⟨hlen, hall, hfc⟩ := compiled_fast_spec hc
  exact select_eq_find_general c args hlen (fun k hk => (hfc k hk).1)
    (fun k hk => (hfc k hk).2) hall hpfx

/-- A registry with types `A` (numbers only), `B` and `C` (anything), and one
conversion `C -> A`, chosen so that the conversion-expanded twin of an `A`
signature qualifies for the fast path while an earlier rest signature does
not. -/
def ctxCE : Ctx JSValue :=
  ⟨[⟨str "A", jsIsNumber⟩, ⟨str "B", ok⟩, ⟨str "C", ok⟩],
   [⟨str "C", str "A", fun _ => JSValue.num 99⟩], []⟩

/-- C2 is refuted at a concrete input: with signatures `A` and `...B` under
`ctxCE`, calling with the single string `"x"` fires fast clause 2 and runs
the conversion-expanded twin of `A` (converting to `99`), while a single
linear scan over the sorted, conversion-expanded def list selects the earlier
rest def `...B` (returning `"rest"`): the fast path jumps over a
non-qualifying def that precedes a qualifying one. -/
theorem c2_counterexample :
    (createTypedFunction ctxCE (str "f") [(str "A", headFn), (str "...B", restRetFn)]).map
        (fun c => (invoke ctxCE c [JSValue.strv (str "x")],
          invokeScan ctxCE c [JSValue.strv (str "x")])) =
      .ok (.ok (JSValue.num 99), .ok (JSValue.strv (str "rest"))) := rfl

/-- C2 (amended): a single invocation of the compiled callable dispatches to
the same def (and returns the same result) as a single linear scan over the
sorted, conversion-expanded def list, provided the defs qualifying for the
six fast-path slots form a prefix of those slots; without that proviso a
qualifying def among the first six can preempt an earlier non-qualifying
(e.g. rest) def that also matches. -/
theorem c2_dispatch_eq_scan {V : Type} [JsValues V] (ctx : Ctx V) (name : Str)
    (signatures : List (Str × (List V → V))) (c : Compiled V) (callCtx : Ctx V)
    (hc : createTypedFunction ctx name signatures = .ok c)
    (hpfx : ∀ j k : Nat, j < k → k < 6 → okDef c.defs k = true → okDef c.defs j = true)
    (args : List V) :
    invoke callCtx c args = invokeScan callCtx c args := by
  unfold invoke invokeScan
  rw [typedSelect_eq_find hc hpfx args]

/-- Witness for the amended C2 at a concrete input: for the `number`/`string`
callable every slot qualifies, so a call goes to the same def the linear scan
finds. -/
theorem c2_witness :
    invoke jsCtx c7c [JSValue.num 5] = invokeScan jsCtx c7c [JSValue.num 5] :=
  c2_dispatch_eq_scan jsCtx (str "f") [(str "number", oneFn), (str "string", twoFn)] c7c
    jsCtx rfl
    (by intro j k hj hk hok; interval_cases k <;> interval_cases j <;> (revert hok; decide))
    [JSValue.num 5]

/-- C3 is refuted at a concrete input: under `ctxCE` with signatures `A` and
`...B`, the argument list `["x"]` matches an original (non-conversion) def —
the rest def `...B` — yet the dispatcher selects a conversion-expanded def
(the `C -> A` twin of `A`), because fast clause 2 fires before the generic
scan reaches the rest def. -/
theorem c3_counterexample :
    (createTypedFunction ctxCE (str "g") [(str "A", headFn), (str "...B", restRetFn)]).map
        (fun c => (c.defs.any (fun d => !d.conversion && d.test [JSValue.strv (str "x")]),
          (typedSelect c [JSValue.strv (str "x")]).map (fun d => d.conversion))) =
      .ok (true, some true) := rfl

/-- C3 (amended): when the defs qualifying for the six fast-path slots form a
prefix of those slots, an argument list matching some original
(non-conversion) def is dispatched to an original def — conversion-expanded
twins sit after all originals in the scanned list, so the first match is an
original; without that proviso a fast-path conversion def can preempt an
earlier matching original. -/
theorem c3_original_first {V : Type} [JsValues V] (callCtx ctx : Ctx V) (name : Str)
    (signatures : List (Str × (List V → V))) (c : Compiled V)
    (hc : createTypedFunction ctx name signatures = .ok c)
    (hpfx : ∀ j k : Nat, j < k → k < 6 → okDef c.defs k = true → okDef c.defs j = true)
    (args : List V)
    (hmatch : ∃ d ∈ c.defs, d.conversion = false ∧ d.test args = true) :
    ∃ d, typedSelect c args = some d ∧ d.conversion = false ∧
      invoke callCtx c args = .ok (applyDef d args) := by
  have hts : typedSelect c args = c.defs.find? (fun d => d.test args) :=
    typedSelect_eq_find hc hpfx args
  obtain ⟨pd, cd, fast, hbd, hcv, hbf, hshape⟩ := createTypedFunction_inv hc
  have hdefs : c.defs = sortWith
      (fun a b => compareSignatures a.signature b.signature (createTypesIndexMap ctx.types))
      pd ++ cd := by rw [hshape]
  obtain ⟨d0, hd0mem, hd0conv, hd0test⟩ := hmatch
  rw [hdefs] at hd0mem
  have hd0S : d0 ∈ sortWith
      (fun a b => compareSignatures a.signature b.signature (createTypesIndexMap ctx.types))
      pd := by
    rcases List.mem_append.mp hd0mem with h | h
    · exact h
    · exfalso
      have hconv := (buildConvDefs_conv ctx _ cd hcv d0 h).1
      rw [hd0conv] at hconv
      exact Bool.false_ne_true hconv
  have hSsome : ((sortWith
      (fun a b => compareSignatures a.signature b.signature (createTypesIndexMap ctx.types))
      pd).find? (fun d => d.test args)).isSome :=
    List.find?_isSome.mpr ⟨d0, hd0S, hd0test⟩
  obtain ⟨dS, hdS⟩ := Option.isSome_iff_exists.mp hSsome
  have hfind : c.defs.find? (fun d => d.test args) = some dS := by
    rw [hdefs, List.find?_append, hdS]
    rfl
  have hdSmem := List.mem_of_find?_eq_some hdS
  have hdSconv : dS.conversion = false :=
    ((buildDefs_mem ctx signatures pd hbd).1 dS ((mem_sortWith _ dS pd).mp hdSmem)).1
  refine ⟨dS, ?_, hdSconv, ?_⟩
  · rw [hts, hfind]
  · unfold invoke
    rw [hts, hfind]

/-- Witness for the amended C3 at a concrete input: for the `number`/`string`
callable a numeric call matches an original def and is dispatched to an
original (non-conversion) def. -/
theorem c3_witness :
    ∃ d, typedSelect c7c [JSValue.num 5] = some d ∧ d.conversion = false ∧
      invoke jsCtx c7c [JSValue.num 5] = .ok (applyDef d [JSValue.num 5]) :=
  c3_original_first jsCtx jsCtx (str "f") [(str "number", oneFn), (str "string", twoFn)] c7c
    rfl
    (by intro j k hj hk hok; interval_cases k <;> interval_cases j <;> (revert hok; decide))
    [JSValue.num 5] (by decide)
